import Mathlib

/-!
Verification development for the fadeAi wallet indexer and position
reconstruction engine.  The definitions below are a shallow embedding of
the TypeScript sources:

* `src/lib/solana/reconstructPositions.ts` (FIFO lot matching, lot metrics)
* `src/lib/indexer/pagination.ts` (backfill, tail sync, normalizer, persistence)
* `src/unnamed/part_009` (reconciliation auditor)
* `src/lib/metadata/tokenMetadata.ts` (token metadata resolver)

Floating point numbers of the source are modelled as exact rationals,
timestamps and slots as integers.  External services (the price oracle,
the transaction provider, the metadata upstreams, the SHA-256 digest) are
modelled as explicit functional parameters; the durable store is modelled
as explicit lists of rows threaded through the operations.
-/

namespace FadeAi

/-! ## Shared data model (src/lib/indexer/normalize.ts, constants.ts) -/

/-- `side` of a canonical wallet event (`"BUY" | "SELL"`). -/
inductive Side
  | BUY
  | SELL
deriving DecidableEq, Repr

/-- Canonical wallet event, `WalletEvent` in `src/lib/indexer/normalize.ts`
(part of pagination.ts in this snapshot): `sig`, `ts` (unix seconds),
`mint`, `decimals`, `qty` (+buy / -sell), `side`, optional `feeLamports`
and `linkId`. -/
structure WalletEvent where
  sig : String
  ts : Int
  mint : String
  decimals : Nat
  qty : ℚ
  side : Side
  feeLamports : Option ℚ := none
  linkId : Option String := none
deriving DecidableEq, Repr

/-- `SOL_MINT` from `src/lib/indexer/constants.ts` (unnamed/part_007). -/
def SOL_MINT : String := "So11111111111111111111111111111111111111112"

/-- `SOL_DECIMALS` from `src/lib/indexer/constants.ts`. -/
def SOL_DECIMALS : Nat := 9

/-! ## Price oracle interface (src/lib/price/PriceService.ts) -/

/-- Candle resolution (`'1m' | '5m' | '1h' | '1d'`). -/
inductive Resolution
  | r1m
  | r5m
  | r1h
  | r1d
deriving DecidableEq, Repr

/-- OHLC candle (`Candle` in `src/lib/price/PriceService.ts`). -/
structure Candle where
  t : Int
  o : ℚ
  h : ℚ
  l : ℚ
  c : ℚ
deriving DecidableEq, Repr

/-- The price oracle, modelled as pure functions (`PriceService`):
`getCandles(tokenMint, start, end, resolution)` and
`getCurrentPriceUsd(tokenMint)` (`null` becomes `none`). -/
structure PriceService where
  getCandles : String → Int → Int → Resolution → List Candle
  getCurrentPriceUsd : String → Option ℚ

/-! ## FIFO position reconstructor (src/lib/solana/reconstructPositions.ts) -/

/-- One matched sell recorded against a lot
(`matchedSells` entries of the `Lot` interface). -/
structure MatchedSell where
  time : Int
  qty : ℚ
  proceedsUsd : ℚ
deriving DecidableEq, Repr

/-- In-memory lot (`Lot` interface in reconstructPositions.ts). -/
structure Lot where
  lotId : String
  tokenMint : String
  buyTime : Int
  buyQty : ℚ
  buyCostUsd : ℚ
  remainingQty : ℚ
  matchedSells : List MatchedSell
  realizedUsd : ℚ
  peakTimestamp : Option Int
  peakPriceUsd : Option ℚ
  peakPotentialUsd : ℚ
  regretGapUsd : ℚ
deriving DecidableEq, Repr

/-- The floating point tolerance `0.000001` used when closing lots. -/
def epsQty : ℚ := 1 / 1000000

/-- First candle's close, or 0 when the list is empty
(`candles.length > 0 ? candles[0].c : 0`). -/
def firstCloseOrZero : List Candle → ℚ
  | [] => 0
  | c :: _ => c.c

/-- Fee conversion in the SELL branch of `processTokenActivities`:
`feeLamports / 10^SOL_DECIMALS * (closing price of SOL in [ts, ts+3600])`,
applied only when `activity.feeLamports && activity.feeLamports > 0`. -/
def sellFeeUsd (ps : PriceService) (a : WalletEvent) : ℚ :=
  match a.feeLamports with
  | none => 0
  | some f =>
    if 0 < f then
      let feeInSol : ℚ := f / (10 : ℚ) ^ SOL_DECIMALS
      let solCandles := ps.getCandles SOL_MINT a.ts (a.ts + 3600) Resolution.r1h
      feeInSol * firstCloseOrZero solCandles
    else 0

/-- The `while (remainingSellQty > 0 && openLots.length > 0)` loop of
`processTokenActivities`.  Returns the lots popped from the queue (in pop
order) paired with the remaining open queue.  Each iteration matches
`min(need, lot.remainingQty)`, appends a `matchedSells` entry with the
candle-close sell price minus the fee, and pops the front lot once its
`remainingQty` drops to at most `epsQty`. -/
def fifoMatch (ps : PriceService) (tokenMint : String) (a : WalletEvent) :
    ℚ → List Lot → List Lot × List Lot
  | _, [] => ([], [])
  | need, lot :: rest =>
    if hneed : 0 < need then
      let matchQty := min need lot.remainingQty
      let sellCandles := ps.getCandles tokenMint a.ts (a.ts + 3600) Resolution.r1h
      let sellPrice := firstCloseOrZero sellCandles
      let proceedsUsd := matchQty * sellPrice - sellFeeUsd ps a
      let lot' : Lot := { lot with
        matchedSells := lot.matchedSells ++ [⟨a.ts, matchQty, proceedsUsd⟩],
        remainingQty := lot.remainingQty - matchQty }
      if hpop : lot'.remainingQty ≤ epsQty then
        let res := fifoMatch ps tokenMint a (need - matchQty) rest
        (lot' :: res.1, res.2)
      else
        fifoMatch ps tokenMint a (need - matchQty) (lot' :: rest)
    else ([], lot :: rest)
termination_by need openLots => (openLots.length, if 0 < need then 1 else 0)
decreasing_by
  · exact Prod.Lex.left _ _ (Nat.lt_succ_self _)
  · have hmq : need ⊓ lot.remainingQty = need := by
      rcases le_total need lot.remainingQty with h | h
      · exact min_eq_left h
      · exfalso
        apply hpop
        show lot.remainingQty - (need ⊓ lot.remainingQty) ≤ epsQty
        rw [min_eq_right h, sub_self]
        norm_num [epsQty]
    apply Prod.Lex.right'
    · exact Nat.le_refl _
    · show (if 0 < need - (need ⊓ lot.remainingQty) then 1 else 0) <
        if 0 < need then 1 else 0
      rw [hmq, sub_self]
      simp [hneed]

/-- The fresh lot created by the BUY branch of `processTokenActivities`
(the `const lot: Lot` literal): `buyQty = remainingQty = |qty|`, empty
matches, zeroed metrics. -/
def buyLot (tokenMint : String) (a : WalletEvent) (priceAtTx : ℚ) : Lot :=
  { lotId := a.sig ++ "-" ++ toString a.ts
    tokenMint := tokenMint
    buyTime := a.ts
    buyQty := |a.qty|
    buyCostUsd := priceAtTx
    remainingQty := |a.qty|
    matchedSells := []
    realizedUsd := 0
    peakTimestamp := none
    peakPriceUsd := none
    peakPotentialUsd := 0
    regretGapUsd := 0 }

/-- The BUY/SELL dispatch of the `for (const activity of activities)` loop
in `processTokenActivities`.  The state is the pair (lots already popped
from the open queue, open queue); the full `lots` array of the source is
their concatenation, in creation order. -/
def processActivity (ps : PriceService) (tokenMint : String)
    (st : List Lot × List Lot) (a : WalletEvent) : List Lot × List Lot :=
  match a.side with
  | Side.BUY =>
    let candles := ps.getCandles tokenMint a.ts (a.ts + 3600) Resolution.r1h
    let priceAtTx := firstCloseOrZero candles
    let lot : Lot := buyLot tokenMint a priceAtTx
    (st.1, st.2 ++ [lot])
  | Side.SELL =>
    let res := fifoMatch ps tokenMint a |a.qty| st.2
    (st.1 ++ res.1, res.2)

/-- Matching phase of `processTokenActivities`: fold all activities,
starting from empty `lots`/`openLots`. -/
def matchPhase (ps : PriceService) (tokenMint : String)
    (activities : List WalletEvent) : List Lot × List Lot :=
  activities.foldl (processActivity ps tokenMint) ([], [])

/-- `candles.reduce((max, candle) => candle.h > max.h ? candle : max)`. -/
def peakOf (c0 : Candle) (cs : List Candle) : Candle :=
  cs.foldl (fun mx c => if mx.h < c.h then c else mx) c0

/-- The candle window and resolution chosen by `calculateLotMetrics`:
`endTime` is the last matched sell time (else `now`), resolution is `1h`
for windows of at most 60 days and `1d` otherwise. -/
def lotWindowEnd (now : Int) (lot : Lot) : Int :=
  match lot.matchedSells.getLast? with
  | some ms => ms.time
  | none => now

/-- Resolution selection of `calculateLotMetrics` (`60 * 24 * 60 * 60`). -/
def lotResolution (now : Int) (lot : Lot) : Resolution :=
  if lotWindowEnd now lot - lot.buyTime ≤ 5184000 then Resolution.r1h
  else Resolution.r1d

/-- `calculateLotMetrics` of reconstructPositions.ts: annotates a lot with
peak, realized and regret-gap metrics.  The oracle is total here, so the
`catch` fallback of the source (only reachable when the oracle throws) has
no counterpart. -/
def calculateLotMetrics (ps : PriceService) (now : Int) (lot : Lot) : Lot :=
  let endTime := lotWindowEnd now lot
  let resolution := lotResolution now lot
  let candles := ps.getCandles lot.tokenMint lot.buyTime endTime resolution
  let lot1 :=
    match candles with
    | [] => lot
    | c0 :: cs =>
      let peakCandle := peakOf c0 cs
      { lot with
        peakTimestamp := some peakCandle.t
        peakPriceUsd := some peakCandle.h
        peakPotentialUsd := lot.buyQty * peakCandle.h }
  let realizedProceeds := lot.matchedSells.foldl (fun s ms => s + ms.proceedsUsd) 0
  let lot2 := { lot1 with realizedUsd := realizedProceeds }
  if 0 < lot.remainingQty then
    match ps.getCurrentPriceUsd lot.tokenMint with
    | some p =>
      if p ≠ 0 then
        let currentValue := lot.remainingQty * p
        let totalValue := realizedProceeds + currentValue
        { lot2 with regretGapUsd := max 0 (lot2.peakPotentialUsd - totalValue) }
      else
        { lot2 with regretGapUsd := max 0 (lot2.peakPotentialUsd - lot2.realizedUsd) }
    | none => { lot2 with regretGapUsd := max 0 (lot2.peakPotentialUsd - lot2.realizedUsd) }
  else
    { lot2 with regretGapUsd := max 0 (lot2.peakPotentialUsd - lot2.realizedUsd) }

/-- `processTokenActivities`: matching phase, then metrics per lot. -/
def processTokenActivities (ps : PriceService) (now : Int) (tokenMint : String)
    (activities : List WalletEvent) : List Lot :=
  let st := matchPhase ps tokenMint activities
  (st.1 ++ st.2).map (calculateLotMetrics ps now)

/-- Sum of matched sell quantities of a lot. -/
def sumMatchedQty (lot : Lot) : ℚ :=
  (lot.matchedSells.map (fun ms => ms.qty)).sum

/-- All lots of a matching state (popped lots followed by the open
queue): the `lots` array of the source, in creation order. -/
def stateLots (st : List Lot × List Lot) : List Lot :=
  st.1 ++ st.2

/-- The lots present after processing the first `i` activities of the
matching phase: every intermediate point of the FIFO matching run. -/
def matchTraceLots (ps : PriceService) (tokenMint : String)
    (activities : List WalletEvent) (i : Nat) : List Lot :=
  stateLots ((activities.take i).foldl (processActivity ps tokenMint) ([], []))

/-- Lot conservation: `remainingQty + Σ matchedSells.qty = buyQty`. -/
def LotConserved (lot : Lot) : Prop :=
  lot.remainingQty + sumMatchedQty lot = lot.buyQty

/-- Quantity bounds for a lot: `0 ≤ remainingQty ≤ buyQty`. -/
def LotBounded (lot : Lot) : Prop :=
  0 ≤ lot.remainingQty ∧ lot.remainingQty ≤ lot.buyQty

/-! ## Token metadata resolver (src/lib/metadata/tokenMetadata.ts) -/

/-- `source` tag of a token metadata entry
(`'local' | 'helius' | 'solscan' | 'jupiter' | 'derived'`). -/
inductive MetaSource
  | localSrc
  | helius
  | solscan
  | jupiter
  | derived
deriving DecidableEq, Repr

/-- `TokenMeta` record of tokenMetadata.ts. -/
structure TokenMetaR where
  mint : String
  symbol : String
  name : Option String := none
  decimals : Nat
  logoURI : Option String := none
  source : MetaSource
deriving DecidableEq, Repr

/-- The three upstream metadata fetchers (`fetchFromHelius`,
`fetchFromSolscan`, `fetchFromJupiter`), each of which returns a result or
`null` and never throws; modelled as pure functions. -/
structure MetaSources where
  fetchHelius : String → Option TokenMetaR
  fetchSolscan : String → Option TokenMetaR
  fetchJupiter : String → Option TokenMetaR

/-- The module-level `localCache` map, as an association list (first
match wins on lookup, `set` overwrites in place). -/
abbrev MetaCache := List (String × TokenMetaR)

/-- `Map.get`: first entry with the key. -/
def cacheGet : MetaCache → String → Option TokenMetaR
  | [], _ => none
  | p :: ps, k => if p.1 = k then some p.2 else cacheGet ps k

/-- `Map.set`: overwrite the entry when present, append otherwise. -/
def cacheSet : MetaCache → String → TokenMetaR → MetaCache
  | [], k, v => [(k, v)]
  | p :: ps, k, v => if p.1 = k then (k, v) :: ps else p :: cacheSet ps k v

/-- `short(m)`: compact symbol fallback `m.slice(0,4) + '…' + m.slice(-4)`. -/
def short (m : String) : String :=
  m.take 4 ++ "…" ++ m.drop (m.length - 4)

/-- The derived fallback entry built by `getTokenMeta`:
`{mint, symbol: short(mint), decimals: hintedDecimals ?? 9, source: 'derived'}`. -/
def derivedMeta (mint : String) (hintedDecimals : Option Nat) : TokenMetaR :=
  { mint := mint
    symbol := short mint
    decimals := hintedDecimals.getD 9
    source := MetaSource.derived }

/-- `getTokenMeta(mint, heliusKey, hintedDecimals)`: consult the cache,
then Helius, Solscan and Jupiter in order, caching any hit; otherwise
cache and return the derived fallback.  Never fails.  Returns the result
together with the updated cache. -/
def getTokenMeta (src : MetaSources) (cache : MetaCache) (mint : String)
    (hintedDecimals : Option Nat) : TokenMetaR × MetaCache :=
  match cacheGet cache mint with
  | some cached => (cached, cache)
  | none =>
    match src.fetchHelius mint with
    | some h => (h, cacheSet cache mint h)
    | none =>
      match src.fetchSolscan mint with
      | some s => (s, cacheSet cache mint s)
      | none =>
        match src.fetchJupiter mint with
        | some j => (j, cacheSet cache mint j)
        | none =>
          let fallback := derivedMeta mint hintedDecimals
          (fallback, cacheSet cache mint fallback)

/-- `getBatchTokenMeta(mints, heliusKey, decimalsHints)`: resolve every
mint via `getTokenMeta`, collecting the results in a map keyed by mint.
The concurrent `Promise.allSettled` of the source is modelled as the
sequential fold in list order (one deterministic interleaving of the
shared cache).  Returns (results map, final cache). -/
def getBatchTokenMeta (src : MetaSources) (cache : MetaCache)
    (mints : List String) (decimalsHints : String → Option Nat) :
    MetaCache × MetaCache :=
  mints.foldl
    (fun acc mint =>
      let r := getTokenMeta src acc.2 mint (decimalsHints mint)
      (cacheSet acc.1 mint r.1, r.2))
    ([], cache)

/-! ## Transaction normalizer (src/lib/indexer/normalize.ts) -/

/-- `.toLowerCase()`: character-wise lower casing (a structurally
recursive equivalent of `String.toLower`). -/
def strToLower (s : String) : String :=
  ⟨s.data.map Char.toLower⟩

/-- One entry of `tx.tokenTransfers` (Helius enhanced schema): optional
`mint`, `fromUserAccount`, `toUserAccount`, `tokenAmount`. -/
structure TokenTransfer where
  mint : Option String := none
  fromUserAccount : Option String := none
  toUserAccount : Option String := none
  tokenAmount : Option ℚ := none
deriving DecidableEq, Repr

/-- One entry of `tx.nativeTransfers`: optional accounts and `amount`
in lamports. -/
structure NativeTransfer where
  fromUserAccount : Option String := none
  toUserAccount : Option String := none
  amount : Option ℚ := none
deriving DecidableEq, Repr

/-- One entry of `tx.instructions` (only `programId` is consulted). -/
structure Instruction where
  programId : Option String := none
deriving DecidableEq, Repr

/-- Provider transaction as shaped by `HeliusClient.getParsedTransactions`
(`EnhancedTx` in src/lib/indexer/heliusClient.ts; `timestamp ?? null`,
`fee ?? 0` already applied by the client).  `hasSwapEvent` models the
presence of `events.swap`. -/
structure HeliusTx where
  signature : String
  slot : Int
  timestamp : Option Int := none
  fee : ℚ := 0
  tokenTransfers : List TokenTransfer := []
  nativeTransfers : List NativeTransfer := []
  instructions : List Instruction := []
  hasSwapEvent : Bool := false
deriving DecidableEq, Repr

/-- `AMM_PROGRAMS` allow-list from `src/lib/indexer/constants.ts`. -/
def AMM_PROGRAMS : List String :=
  [ "JUP4Fb2cqiRUcaTHdrPC8h2gNsA2ETXiPDD33WcGuJB"
  , "JUP6LkbZbjS1jKKwapdHNy74zcZ3tLUZoi5QNyVTaV4"
  , "JUP2jxvXaqu7NQY1GmNF4m1vodw12LVXYxbFL2uJvfo"
  , "RVKd61ztZW9GUwhR6KJh7zhG9T67pZqSWLJtFK5G9wB"
  , "675kPX9MHTjS2zt1qfr1NYHuzeLXfQM9H24wFSUt1Mp8"
  , "5quBtoiQqxF9Jv6KYKctB59NT3gtJDz6TzZAA7m3g6Zt"
  , "9W959DqZ7W2bQYtRrN2rS2G6bGdGk2sQz6AqZ5E9uoBD"
  , "whirLbMiicVdio4qvUfM5KAg6Ct8VwpYzGff3uctyCc"
  , "9xQeWvG816bUbEUVXhEpuGqDJoDNLuoB9tGk1K7arAJ7"
  , "AMM55ShdkoGRB5jVYPjWJkYyQj6B4V3bqZgxf3JiH6Sz"
  , "SSwpkEEcfU9dbzpxvTQa3pWG8v3p1m6n5V8XK3g9NX7"
  , "MERLuDFBMmsHnsBPZw2sDQZHvXFMwp8EdjudcU2HKky"
  , "CTMAxxk34HjKWxQ3QLZ1B3FzBXVuD7pDtvSxUpL8GDF"
  , "EewxydAPCCVuNEyrVN68PuSYdQ7wKn27V9Gjeoi8dy3S"
  , "Eo7WjKq67rjJQSZxS6z3YkapzY3eMj6Xy8X5EQVn5UaB" ]

/-- `isSwapTx`: a structured swap event, an AMM program id among the
top-level instructions, or ≥ 2 distinct mints over ≥ 2 token transfers. -/
def isSwapTx (tx : HeliusTx) : Bool :=
  tx.hasSwapEvent ||
  tx.instructions.any (fun i =>
    match i.programId with
    | some pid => AMM_PROGRAMS.contains pid
    | none => false) ||
  (((tx.tokenTransfers.filterMap (fun t => t.mint)).dedup.length ≥ 2 : Bool) &&
    (tx.tokenTransfers.length ≥ 2 : Bool))

/-- Events emitted by step (1) of `normalize`: SPL transfers where the
wallet is sender (SELL, negative qty) or receiver (BUY, positive qty);
decimals come from the metadata cache with the `?? 9` fallback. -/
def splEvents (cache : String → Option TokenMetaR) (w : String)
    (sig : String) (ts : Int) (transfers : List TokenTransfer) :
    List WalletEvent :=
  transfers.filterMap (fun t =>
    match t.mint, t.tokenAmount with
    | some mint, some amount =>
      let from_ := strToLower (t.fromUserAccount.getD "")
      let to_ := strToLower (t.toUserAccount.getD "")
      let decimals := ((cache mint).map (fun m => m.decimals)).getD 9
      if from_ = w ∧ to_ ≠ w then
        some { sig := sig, ts := ts, mint := mint, decimals := decimals,
               qty := -amount, side := Side.SELL }
      else if to_ = w ∧ from_ ≠ w then
        some { sig := sig, ts := ts, mint := mint, decimals := decimals,
               qty := amount, side := Side.BUY }
      else none
    | _, _ => none)

/-- Events emitted by step (2) of `normalize`: native transfers under
`SOL_MINT` / `SOL_DECIMALS`, amounts in lamports. -/
def nativeEvents (w : String) (sig : String) (ts : Int)
    (transfers : List NativeTransfer) : List WalletEvent :=
  transfers.filterMap (fun nt =>
    match nt.amount with
    | some amount =>
      let from_ := strToLower (nt.fromUserAccount.getD "")
      let to_ := strToLower (nt.toUserAccount.getD "")
      if from_ = w ∧ to_ ≠ w then
        some { sig := sig, ts := ts, mint := SOL_MINT, decimals := SOL_DECIMALS,
               qty := -amount, side := Side.SELL }
      else if to_ = w ∧ from_ ≠ w then
        some { sig := sig, ts := ts, mint := SOL_MINT, decimals := SOL_DECIMALS,
               qty := amount, side := Side.BUY }
      else none
    | none => none)

/-- Step (3) of `normalize`: when the transaction is a swap and at least
two events were emitted, stamp the last two with `linkId = "swap:" + sig`.
(The source filters `out` by `e.sig === sig`, which keeps every event.) -/
def applySwapLink (sig : String) (out : List WalletEvent) : List WalletEvent :=
  if out.length ≥ 2 then
    let linkId := "swap:" ++ sig
    out.take (out.length - 2) ++
      (out.drop (out.length - 2)).map (fun e => { e with linkId := some linkId })
  else out

/-- Replace the element at index `i` (no-op when out of range). -/
def modifyIdx (l : List WalletEvent) (i : Nat) (f : WalletEvent → WalletEvent) :
    List WalletEvent :=
  match l, i with
  | [], _ => []
  | x :: xs, 0 => f x :: xs
  | x :: xs, Nat.succ n => x :: modifyIdx xs n f

/-- Step (4) of `normalize`: when `fee > 0` and at least one event was
emitted, add the fee to the `feeLamports` of the first SELL event, else of
the first event. -/
def applyFee (feeLamports : ℚ) (out : List WalletEvent) : List WalletEvent :=
  if 0 < feeLamports ∧ out ≠ [] then
    let target :=
      match out.findIdx? (fun e => e.side = Side.SELL) with
      | some i => i
      | none => 0
    modifyIdx out target
      (fun e => { e with feeLamports := some (e.feeLamports.getD 0 + feeLamports) })
  else out

/-- `normalize(tx, wallet)`: SPL transfers, native transfers, swap
labelling, fee attribution; `ts = tx.timestamp ?? 0` and the wallet is
lower-cased. -/
def normalize (cache : String → Option TokenMetaR) (wallet : String)
    (tx : HeliusTx) : List WalletEvent :=
  let ts := tx.timestamp.getD 0
  let sig := tx.signature
  let w := strToLower wallet
  let out := splEvents cache w sig ts tx.tokenTransfers ++
    nativeEvents w sig ts tx.nativeTransfers
  let out := if isSwapTx tx then applySwapLink sig out else out
  applyFee tx.fee out

/-- `normalizeTransactions(transactions, wallet)`: normalize each
transaction and concatenate the events.  The batch metadata fetch of the
source fills `tokenMetadataCache`; the filled cache is the `cache`
parameter here (its construction is `getBatchTokenMeta` above). -/
def normalizeTransactions (cache : String → Option TokenMetaR)
    (wallet : String) (transactions : List HeliusTx) : List WalletEvent :=
  transactions.flatMap (normalize cache wallet)

/-! ## Durable store (prisma tables rawTx / walletTx, upsert semantics) -/

/-- A `rawTx` row: keyed by `signature`; `slot`, `blockTime` and the
serialized provider payload. -/
structure RawTxRow where
  signature : String
  slot : Int
  blockTime : Option Int
  json : HeliusTx
deriving DecidableEq, Repr

/-- A `walletTx` row as built by `persistWalletEvents` (the `meta` JSON
is modelled by its two components `feeLamports` and `linkId`). -/
structure WalletTxRow where
  id : String
  wallet : String
  signature : String
  index : Nat
  slot : Int
  blockTime : Int
  program : String
  type : Side
  direction : Side
  tokenMint : String
  tokenSymbol : String
  tokenDecimals : Nat
  amountRaw : ℚ
  amountUi : ℚ
  feeLamports : Option ℚ
  linkId : Option String
deriving DecidableEq, Repr

/-- The durable store: `rawTx` and `walletTx` tables as row lists. -/
structure Store where
  rawTx : List RawTxRow := []
  walletTx : List WalletTxRow := []
deriving DecidableEq, Repr

/-- `prisma.rawTx.upsert({where: {signature}, ...})`: replace the row with
the same signature in place, else append. -/
def upsertRawTx (rows : List RawTxRow) (row : RawTxRow) : List RawTxRow :=
  if rows.any (fun r => r.signature == row.signature) then
    rows.map (fun r => if r.signature == row.signature then row else r)
  else rows ++ [row]

/-- `persistRawTransactions(transactions)`: upsert one row per
transaction, keyed by signature. -/
def persistRawTransactions (store : Store) (transactions : List HeliusTx) :
    Store :=
  { store with rawTx := (transactions.foldl
      (fun rs tx => upsertRawTx rs ⟨tx.signature, tx.slot, tx.timestamp, tx⟩)
      store.rawTx) }

/-- One insert of `persistWalletEvents`: built from `(event, index)` where
`index` is the event's position in the whole persisted batch;
`id = wallet + "_" + sig + "_" + index`, `slot = 0`,
`program = linkId ? 'SWAP' : 'TRANSFER'`, symbol from the metadata cache
with the `|| 'UNKNOWN'` fallback, `amountUi = qty / 10^decimals`. -/
def walletEventRow (cache : String → Option TokenMetaR) (wallet : String)
    (e : WalletEvent) (index : Nat) : WalletTxRow :=
  let symbol := ((cache e.mint).map (fun m => m.symbol)).getD ""
  { id := wallet ++ "_" ++ e.sig ++ "_" ++ toString index
    wallet := wallet
    signature := e.sig
    index := index
    slot := 0
    blockTime := e.ts
    program := if e.linkId.isSome then "SWAP" else "TRANSFER"
    type := e.side
    direction := e.side
    tokenMint := e.mint
    tokenSymbol := if symbol = "" then "UNKNOWN" else symbol
    tokenDecimals := e.decimals
    amountRaw := e.qty
    amountUi := e.qty / (10 : ℚ) ^ e.decimals
    feeLamports := e.feeLamports
    linkId := e.linkId }

/-- The `dbInserts` list of `persistWalletEvents`: one row per event,
indexed by position in the batch. -/
def walletEventRows (cache : String → Option TokenMetaR) (wallet : String)
    (events : List WalletEvent) : List WalletTxRow :=
  events.enum.map (fun p => walletEventRow cache wallet p.2 p.1)

/-- `prisma.walletTx.upsert({where: {id}, ...})`. -/
def upsertWalletTx (rows : List WalletTxRow) (row : WalletTxRow) :
    List WalletTxRow :=
  if rows.any (fun r => r.id == row.id) then
    rows.map (fun r => if r.id == row.id then row else r)
  else rows ++ [row]

/-- `persistWalletEvents(events, wallet)`: no-op on the empty batch, else
upsert each built row by `id`. -/
def persistWalletEvents (cache : String → Option TokenMetaR) (store : Store)
    (events : List WalletEvent) (wallet : String) : Store :=
  if events = [] then store
  else { store with walletTx :=
    (walletEventRows cache wallet events).foldl upsertWalletTx store.walletTx }

/-! ## Ingestion driver (src/lib/indexer/pagination.ts) -/

/-- Per-wallet `syncState` row. -/
structure SyncState where
  wallet : String
  lastBefore : Option String := none
  verifiedSlot : Option Int := none
  fullScanAt : Option Int := none
deriving DecidableEq, Repr

/-- `IndexerStats` (durationMs omitted; slot bounds keep the JavaScript
`Math.max(...[]) = -Infinity` / `Math.min(...[]) = Infinity` behaviour via
`WithBot` / `WithTop`). -/
structure IndexerStats where
  pagesFetched : Nat := 0
  rawTxCount : Nat := 0
  walletTxCount : Nat := 0
  retryCount : Nat := 0
  lastBefore : Option String := none
  verifiedSlot : Option Int := none
  firstSlot : Option (WithBot Int) := none
  lastSlot : Option (WithTop Int) := none
deriving DecidableEq, Repr

/-- The all-zero initial stats record of `backfillWallet` / `syncTail`. -/
def initStats : IndexerStats := {}

/-- `Math.max(...slots)` (empty list gives `-Infinity = ⊥`). -/
def maxSlots (slots : List Int) : WithBot Int :=
  slots.foldl (fun a s => max a (s : WithBot Int)) ⊥

/-- `Math.min(...slots)` (empty list gives `Infinity = ⊤`). -/
def minSlots (slots : List Int) : WithTop Int :=
  slots.foldl (fun a s => min a (s : WithTop Int)) ⊤

/-- `Math.max(...slots)` over a nonempty list, as a plain integer (the
`[]` case is unreachable at its call sites). -/
def maxSlotsInt : List Int → Int
  | [] => 0
  | s :: ss => ss.foldl max s

/-- `Math.min(...slots)` over a nonempty list, as a plain integer. -/
def minSlotsInt : List Int → Int
  | [] => 0
  | s :: ss => ss.foldl min s

/-- One outcome of a `HeliusClient.getParsedTransactions` call, after the
client's own retry layer: either a parsed page with the derived
`nextBefore` cursor, or a thrown `ApiHttpError` with its HTTP status and
decoded message. -/
inductive ProviderResult
  | page (items : List HeliusTx) (nextBefore : Option String)
  | httpError (status : Nat) (message : String)
deriving DecidableEq, Repr

/-- Substring test over the character lists. -/
def strContainsSub (s pat : String) : Bool :=
  s.data.tails.any (fun t => pat.data.isPrefixOf t)

/-- The `/invalid before/i` regex test: case-insensitive substring. -/
def containsInvalidBefore (msg : String) : Bool :=
  strContainsSub (strToLower msg) "invalid before"

/-- Result of a driver run: `ok` carries the returned stats and the final
store and sync state; `failed` models an exception surfacing to the
caller. -/
inductive RunOutcome
  | ok (stats : IndexerStats) (store : Store) (sync : SyncState)
  | failed (message : String)
deriving DecidableEq, Repr

/-- The `for (let page = 1; page <= maxPagesLimit; page++)` loop of
`backfillWallet`, consuming one scripted provider response per provider
call.  A page with items: count it, track slots, persist raw rows and
normalized events, then stop on empty items or missing cursor, else
advance the cursor (also into `syncState.lastBefore`) and page again.  A
thrown `ApiHttpError` that is a 400 with an `invalid before` body resets
the cursor and retries the same page number when no reset has happened
yet in this run (`cursorReset`); every other caught error (including a
second cursor error) logs and breaks out of the loop.  The dead
`verifiedSlot` update after the `continue`/`break` pair of the source is
unreachable and has no counterpart here. -/
def backfillLoop (cache : String → Option TokenMetaR) (wallet : String)
    (maxPages : Nat) (script : List ProviderResult) (page : Nat)
    (cursorReset : Bool) (before : Option String) (stats : IndexerStats)
    (store : Store) (sync : SyncState) : IndexerStats × Store × SyncState :=
  if page > maxPages then (stats, store, sync) else
  match script with
  | [] => (stats, store, sync)
  | ProviderResult.page items nextBefore :: rest =>
    let stats := { stats with
      pagesFetched := stats.pagesFetched + 1
      rawTxCount := stats.rawTxCount + items.length }
    let slots := items.map (fun tx => tx.slot)
    let stats := if stats.firstSlot = none then
        { stats with firstSlot := some (maxSlots slots) } else stats
    let stats := { stats with lastSlot := some (minSlots slots) }
    let store := persistRawTransactions store items
    let events := normalizeTransactions cache wallet items
    let store := persistWalletEvents cache store events wallet
    let stats := { stats with walletTxCount := stats.walletTxCount + events.length }
    if items = [] then (stats, store, sync)
    else
      match nextBefore with
      | some nb =>
        let sync := { sync with lastBefore := some nb }
        let stats := { stats with lastBefore := some nb }
        backfillLoop cache wallet maxPages rest (page + 1) cursorReset (some nb)
          stats store sync
      | none => (stats, store, sync)
  | ProviderResult.httpError status msg :: rest =>
    if status = 400 ∧ containsInvalidBefore msg ∧ cursorReset = false then
      backfillLoop cache wallet maxPages rest page true none stats store sync
    else (stats, store, sync)

/-- `backfillWallet(wallet, maxPages)`: load or create the sync state,
start from its cursor, run the paging loop, then stamp
`syncState.fullScanAt = now`.  Provider errors never escape the loop, so
the run returns stats normally (`RunOutcome.ok`); only store failures
(not modelled — the store here is total) would surface through the outer
catch as `RunOutcome.failed`. -/
def backfillWallet (cache : String → Option TokenMetaR)
    (script : List ProviderResult) (wallet : String) (maxPages : Nat)
    (now : Int) (store : Store) (syncOpt : Option SyncState) : RunOutcome :=
  let sync0 :=
    match syncOpt with
    | some s => s
    | none => { wallet := wallet, lastBefore := none, verifiedSlot := none,
                fullScanAt := none }
  let r := backfillLoop cache wallet maxPages script 1 false sync0.lastBefore
    initStats store sync0
  RunOutcome.ok r.1 r.2.1 { r.2.2 with fullScanAt := some now }

/-- `syncTail(wallet)`: requires an existing sync state; fetch the newest
page, walk it in received order stopping at the first signature already
stored, persist only that prefix, and set `verifiedSlot` to the highest
slot among the newly persisted items.  Unlike `backfillWallet`, the catch
block of `syncTail` rethrows, so a provider error surfaces as `failed`. -/
def syncTail (cache : String → Option TokenMetaR) (resp : ProviderResult)
    (wallet : String) (store : Store) (syncOpt : Option SyncState) :
    RunOutcome :=
  match syncOpt with
  | none =>
    RunOutcome.failed
      ("No sync state found for wallet " ++ wallet ++ ". Run backfill first.")
  | some sync =>
    match resp with
    | ProviderResult.httpError _ msg => RunOutcome.failed msg
    | ProviderResult.page items _ =>
      if items = [] then RunOutcome.ok initStats store sync
      else
        let newTransactions := items.takeWhile (fun tx =>
          !(store.rawTx.any (fun r => r.signature == tx.signature)))
        if newTransactions = [] then RunOutcome.ok initStats store sync
        else
          let slots := newTransactions.map (fun tx => tx.slot)
          let stats := { initStats with
            pagesFetched := 1
            rawTxCount := newTransactions.length
            firstSlot := some (maxSlots slots)
            lastSlot := some (minSlots slots) }
          let store := persistRawTransactions store newTransactions
          let events := normalizeTransactions cache wallet newTransactions
          let store := persistWalletEvents cache store events wallet
          let stats := { stats with walletTxCount := events.length }
          let highestSlot := maxSlotsInt slots
          let sync := { sync with verifiedSlot := some highestSlot }
          RunOutcome.ok { stats with verifiedSlot := some highestSlot } store sync

/-! ## Reconciliation auditor (src/unnamed/part_009) -/

/-- `ReconcileResult` of src/lib/indexer/types.ts. -/
structure ReconcileResult where
  wallet : String
  fromSlot : Int
  toSlot : Int
  countRaw : Nat
  countWalletTx : Nat
  hash : String
  ok : Bool
  missingSignatures : List String
deriving DecidableEq, Repr

/-- A `reconcileAudit` row (append-only; the synthetic timestamped id is
immaterial and omitted). -/
structure AuditRow where
  wallet : String
  fromSlot : Int
  toSlot : Int
  countRaw : Nat
  countWalletTx : Nat
  hash : String
  ok : Bool
deriving DecidableEq, Repr

/-- Insert into a ≤-sorted list of strings. -/
def insertSorted (s : String) : List String → List String
  | [] => [s]
  | t :: ts => if s ≤ t then s :: t :: ts else t :: insertSorted s ts

/-- `signatures.sort()`: lexicographic string sort. -/
def sortStrings (l : List String) : List String :=
  l.foldr insertSorted []

/-- `computeSignatureHash(signatures)`: SHA-256 of the sorted signatures
joined with the empty string.  The SHA-256 digest itself is the external
`crypto` library, modelled as the function parameter `sha`. -/
def computeSignatureHash (sha : String → String) (signatures : List String) :
    String :=
  sha (String.join (sortStrings signatures))

/-- Signatures of the stored raw transactions with `slot ∈ [fromSlot, toSlot]`
(the `prisma.rawTx.findMany` slot-range query). -/
def sigsInRange (store : Store) (fromSlot toSlot : Int) : List String :=
  (store.rawTx.filter (fun r => fromSlot ≤ r.slot ∧ r.slot ≤ toSlot)).map
    (fun r => r.signature)

/-- The audit row recorded from a result. -/
def auditOf (result : ReconcileResult) : AuditRow :=
  { wallet := result.wallet
    fromSlot := result.fromSlot
    toSlot := result.toSlot
    countRaw := result.countRaw
    countWalletTx := result.countWalletTx
    hash := result.hash
    ok := result.ok }

/-- `fetchTransactionsInSlotRange`: page backward through the scripted
provider pages, keeping only items inside the slot range, stopping on an
empty page or once a page's minimum slot falls below `fromSlot` (that
page's in-range items are still kept). -/
def fetchTransactionsInSlotRange (script : List (List HeliusTx))
    (fromSlot toSlot : Int) : List HeliusTx :=
  match script with
  | [] => []
  | items :: rest =>
    if items = [] then []
    else
      let transactionsInRange :=
        items.filter (fun tx => fromSlot ≤ tx.slot ∧ tx.slot ≤ toSlot)
      let minSlot := minSlotsInt (items.map (fun tx => tx.slot))
      if minSlot < fromSlot then transactionsInRange
      else transactionsInRange ++ fetchTransactionsInSlotRange rest fromSlot toSlot

/-- `reconcileSlotRange(wallet, fromSlot, toSlot)` given the transactions
the provider reported for the range (`fetched`, the result of
`fetchTransactionsInSlotRange`): diff provider vs stored signature sets,
re-ingest any missing transactions, recompute the stored hash after the
repair, decide `ok`, and append an audit row.  Returns the result, the
repaired store and the audit log. -/
def reconcileSlotRange (sha : String → String)
    (cache : String → Option TokenMetaR) (fetched : List HeliusTx)
    (wallet : String) (fromSlot toSlot : Int) (store : Store)
    (audits : List AuditRow) : ReconcileResult × Store × List AuditRow :=
  let heliusSignatures := sortStrings (fetched.map (fun tx => tx.signature))
  let storedSignatures := sortStrings (sigsInRange store fromSlot toSlot)
  let countWalletTx := (store.walletTx.filter (fun r =>
    r.wallet = wallet ∧ fromSlot ≤ r.slot ∧ r.slot ≤ toSlot)).length
  let heliusHash := computeSignatureHash sha heliusSignatures
  let storedHash := computeSignatureHash sha storedSignatures
  let missing := heliusSignatures.filter (fun s => !(storedSignatures.contains s))
  let ok0 := (heliusHash == storedHash) && missing.isEmpty
  if missing ≠ [] then
    let missingTransactions := fetched.filter (fun tx =>
      missing.contains tx.signature)
    let store1 := persistRawTransactions store missingTransactions
    let events := normalizeTransactions cache wallet missingTransactions
    let store2 := persistWalletEvents cache store1 events wallet
    let updatedStoredSignatures := sortStrings (sigsInRange store2 fromSlot toSlot)
    let hash2 := computeSignatureHash sha updatedStoredSignatures
    let result : ReconcileResult :=
      { wallet := wallet, fromSlot := fromSlot, toSlot := toSlot
        countRaw := storedSignatures.length, countWalletTx := countWalletTx
        hash := hash2, ok := heliusHash == hash2
        missingSignatures := missing }
    (result, store2, audits ++ [auditOf result])
  else
    let result : ReconcileResult :=
      { wallet := wallet, fromSlot := fromSlot, toSlot := toSlot
        countRaw := storedSignatures.length, countWalletTx := countWalletTx
        hash := storedHash, ok := ok0
        missingSignatures := missing }
    (result, store, audits ++ [auditOf result])

/-! ## Invariants of the FIFO matching run (claims C1, C10, C7) -/

lemma epsQty_nonneg : (0 : ℚ) ≤ epsQty := by norm_num [epsQty]

lemma fifoMatch_nil (ps : PriceService) (tm : String) (a : WalletEvent)
    (need : ℚ) : fifoMatch ps tm a need [] = ([], []) := by
  rw [fifoMatch]

/-- A per-lot property preserved by one matching step (with the matched
quantity `min need lot.remainingQty` for a positive `need`) and holding on
the open queue holds for every lot produced by the `while` loop. -/
lemma fifoMatch_inv (ps : PriceService) (tm : String) (a : WalletEvent)
    (P : Lot → Prop)
    (hstep : ∀ (lot : Lot) (need p : ℚ), 0 < need → P lot →
      P { lot with
        matchedSells := lot.matchedSells ++
          [⟨a.ts, min need lot.remainingQty, p⟩],
        remainingQty := lot.remainingQty - min need lot.remainingQty }) :
    ∀ (need : ℚ) (openLots : List Lot), (∀ lot ∈ openLots, P lot) →
      ∀ x ∈ (fifoMatch ps tm a need openLots).1 ++
        (fifoMatch ps tm a need openLots).2, P x := by
  intro need openLots
  induction openLots generalizing need with
  | nil =>
    intro _ x hmem
    rw [fifoMatch_nil] at hmem
    simp at hmem
  | cons lot rest ih =>
    intro h x hmem
    have hrest : ∀ l ∈ rest, P l := fun l hl => h l (List.mem_cons_of_mem _ hl)
    have hlot : P lot := h lot (List.mem_cons_self _ _)
    rw [fifoMatch] at hmem
    by_cases hneed : 0 < need
    · rw [dif_pos hneed] at hmem
      dsimp only at hmem
      by_cases hpop : lot.remainingQty - min need lot.remainingQty ≤ epsQty
      · rw [dif_pos hpop] at hmem
        dsimp only at hmem
        rcases List.mem_append.1 hmem with hmem1 | hmem2
        · rcases List.mem_cons.1 hmem1 with rfl | hmem1'
          · exact hstep lot need _ hneed hlot
          · exact ih _ hrest x (List.mem_append.2 (Or.inl hmem1'))
        · exact ih _ hrest x (List.mem_append.2 (Or.inr hmem2))
      · rw [dif_neg hpop] at hmem
        have hmq : min need lot.remainingQty = need := by
          rcases le_total need lot.remainingQty with hle | hle
          · exact min_eq_left hle
          · exact absurd (by rw [min_eq_right hle, sub_self]; exact epsQty_nonneg) hpop
        rw [hmq, sub_self, fifoMatch, dif_neg (lt_irrefl (0 : ℚ))] at hmem
        rcases List.mem_append.1 hmem with hmem1 | hmem2
        · simp at hmem1
        · rcases List.mem_cons.1 hmem2 with rfl | hmem2'
          · have h2 := hstep lot need
              (need * firstCloseOrZero (ps.getCandles tm a.ts (a.ts + 3600)
                Resolution.r1h) - sellFeeUsd ps a) hneed hlot
            rw [hmq] at h2
            exact h2
          · exact h x (List.mem_cons_of_mem _ hmem2')
    · rw [dif_neg hneed] at hmem
      rcases List.mem_append.1 hmem with hmem1 | hmem2
      · simp at hmem1
      · exact h x hmem2

/-- A per-lot property preserved by matching steps and satisfied by fresh
BUY lots is an invariant of `processActivity`. -/
lemma processActivity_inv (ps : PriceService) (tm : String) (P : Lot → Prop)
    (hstep : ∀ (a : WalletEvent) (lot : Lot) (need p : ℚ), 0 < need → P lot →
      P { lot with
        matchedSells := lot.matchedSells ++
          [⟨a.ts, min need lot.remainingQty, p⟩],
        remainingQty := lot.remainingQty - min need lot.remainingQty })
    (hbuy : ∀ (a : WalletEvent) (price : ℚ), P (buyLot tm a price))
    (st : List Lot × List Lot) (a : WalletEvent)
    (h : ∀ lot ∈ stateLots st, P lot) :
    ∀ lot ∈ stateLots (processActivity ps tm st a), P lot := by
  intro x hmem
  unfold processActivity at hmem
  rcases hside : a.side with _ | _
  · rw [hside] at hmem
    dsimp only at hmem
    unfold stateLots at hmem h
    rcases List.mem_append.1 hmem with h1 | h2
    · exact h x (List.mem_append.2 (Or.inl h1))
    · rcases List.mem_append.1 h2 with h2a | h2b
      · exact h x (List.mem_append.2 (Or.inr h2a))
      · rcases List.mem_singleton.1 h2b with rfl
        exact hbuy a _
  · rw [hside] at hmem
    dsimp only at hmem
    unfold stateLots at hmem h
    rcases List.mem_append.1 hmem with h1 | h2
    · rcases List.mem_append.1 h1 with h1a | h1b
      · exact h x (List.mem_append.2 (Or.inl h1a))
      · exact fifoMatch_inv ps tm a P (hstep a) _ _
          (fun l hl => h l (List.mem_append.2 (Or.inr hl))) x
          (List.mem_append.2 (Or.inl h1b))
    · exact fifoMatch_inv ps tm a P (hstep a) _ _
        (fun l hl => h l (List.mem_append.2 (Or.inr hl))) x
        (List.mem_append.2 (Or.inr h2))

/-- Invariance along the whole matching fold. -/
lemma matchFold_inv (ps : PriceService) (tm : String) (P : Lot → Prop)
    (hstep : ∀ (a : WalletEvent) (lot : Lot) (need p : ℚ), 0 < need → P lot →
      P { lot with
        matchedSells := lot.matchedSells ++
          [⟨a.ts, min need lot.remainingQty, p⟩],
        remainingQty := lot.remainingQty - min need lot.remainingQty })
    (hbuy : ∀ (a : WalletEvent) (price : ℚ), P (buyLot tm a price)) :
    ∀ (activities : List WalletEvent) (st : List Lot × List Lot),
      (∀ lot ∈ stateLots st, P lot) →
      ∀ lot ∈ stateLots (activities.foldl (processActivity ps tm) st), P lot := by
  intro activities
  induction activities with
  | nil => intro st h; exact h
  | cons a rest ih =>
    intro st h
    exact ih _ (processActivity_inv ps tm P hstep hbuy st a h)

/-- `calculateLotMetrics` never touches `remainingQty`, `matchedSells`,
`buyQty`, `tokenMint` or `buyTime`. -/
lemma calculateLotMetrics_preserves (ps : PriceService) (now : Int) (lot : Lot) :
    (calculateLotMetrics ps now lot).remainingQty = lot.remainingQty ∧
    (calculateLotMetrics ps now lot).matchedSells = lot.matchedSells ∧
    (calculateLotMetrics ps now lot).buyQty = lot.buyQty ∧
    (calculateLotMetrics ps now lot).tokenMint = lot.tokenMint ∧
    (calculateLotMetrics ps now lot).buyTime = lot.buyTime := by
  unfold calculateLotMetrics
  refine ⟨?_, ?_, ?_, ?_, ?_⟩ <;>
    (dsimp only
     repeat' split
     all_goals rfl)

/-- Closed-form of one non-popping iteration of the matching loop: with a
positive `need` and the front lot left above the closing tolerance, the
loop records a single matched sell against the front lot and stops. -/
lemma fifoMatch_cons_stay (ps : PriceService) (tm : String) (a : WalletEvent)
    (need : ℚ) (lot : Lot) (rest : List Lot) (hneed : 0 < need)
    (hpop : ¬(lot.remainingQty - min need lot.remainingQty ≤ epsQty)) :
    fifoMatch ps tm a need (lot :: rest) =
      ([], { lot with
          matchedSells := lot.matchedSells ++
            [⟨a.ts, min need lot.remainingQty,
              min need lot.remainingQty *
                firstCloseOrZero (ps.getCandles tm a.ts (a.ts + 3600)
                  Resolution.r1h) - sellFeeUsd ps a⟩],
          remainingQty := lot.remainingQty - min need lot.remainingQty } :: rest) := by
  have hmq : min need lot.remainingQty = need := by
    rcases le_total need lot.remainingQty with hle | hle
    · exact min_eq_left hle
    · exact absurd (by rw [min_eq_right hle, sub_self]; exact epsQty_nonneg) hpop
  rw [fifoMatch, dif_pos hneed]
  dsimp only
  rw [dif_neg hpop, hmq, sub_self, fifoMatch, dif_neg (lt_irrefl (0 : ℚ))]

/-- When the candle request over the lot's window comes back empty,
`calculateLotMetrics` leaves the three peak fields untouched. -/
lemma calculateLotMetrics_empty_candles (ps : PriceService) (now : Int)
    (lot : Lot)
    (hempty : ps.getCandles lot.tokenMint lot.buyTime (lotWindowEnd now lot)
      (lotResolution now lot) = []) :
    (calculateLotMetrics ps now lot).peakTimestamp = lot.peakTimestamp ∧
    (calculateLotMetrics ps now lot).peakPriceUsd = lot.peakPriceUsd ∧
    (calculateLotMetrics ps now lot).peakPotentialUsd = lot.peakPotentialUsd := by
  unfold calculateLotMetrics
  refine ⟨?_, ?_, ?_⟩ <;>
    (dsimp only
     rw [hempty]
     dsimp only
     repeat' split
     all_goals rfl)

/-- C1: For every lot produced by a reconstruction run — at every point
of the FIFO matching fold (`matchTraceLots` lists the lots after each
processed activity) and in the final output of `processTokenActivities` —
`remainingQty + Σ matchedSells[i].qty` equals `buyQty` up to the fixed
floating-point epsilon `10⁻⁶` (over the exact rationals of this model the
identity is exact, hence inside any nonnegative tolerance). -/
theorem lot_conservation (ps : PriceService) (now : Int) (tokenMint : String)
    (activities : List WalletEvent) (i : Nat) (lot : Lot)
    (hmem : lot ∈ matchTraceLots ps tokenMint activities i ++
      processTokenActivities ps now tokenMint activities) :
    |lot.remainingQty + sumMatchedQty lot - lot.buyQty| ≤ epsQty := by
  have hstep : ∀ (a : WalletEvent) (l : Lot) (need p : ℚ), 0 < need →
      LotConserved l → LotConserved { l with
        matchedSells := l.matchedSells ++
          [⟨a.ts, min need l.remainingQty, p⟩],
        remainingQty := l.remainingQty - min need l.remainingQty } := by
    intro a l need p _ hl
    unfold LotConserved sumMatchedQty at hl ⊢
    simp only [List.map_append, List.map_cons, List.map_nil, List.sum_append,
      List.sum_cons, List.sum_nil]
    linarith
  have hbuy : ∀ (a : WalletEvent) (price : ℚ),
      LotConserved (buyLot tokenMint a price) := by
    intro a price
    unfold LotConserved sumMatchedQty buyLot
    simp
  have hconserved : LotConserved lot := by
    rcases List.mem_append.1 hmem with h1 | h2
    · exact matchFold_inv ps tokenMint LotConserved hstep hbuy
        (activities.take i) ([], [])
        (by intro l hl; simp [stateLots] at hl) lot h1
    · unfold processTokenActivities at h2
      dsimp only at h2
      rcases List.mem_map.1 h2 with ⟨y, hy, rfl⟩
      have hyc : LotConserved y := by
        refine matchFold_inv ps tokenMint LotConserved hstep hbuy
          activities ([], []) (by intro l hl; simp [stateLots] at hl) y ?_
        unfold matchPhase at hy
        exact hy
      obtain ⟨hr, hms, hb, -, -⟩ := calculateLotMetrics_preserves ps now y
      unfold LotConserved sumMatchedQty at hyc ⊢
      rw [hr, hms, hb]
      exact hyc
  have hz : lot.remainingQty + sumMatchedQty lot - lot.buyQty = 0 := by
    unfold LotConserved at hconserved
    linarith
  rw [hz, abs_zero]
  exact epsQty_nonneg

def psC1 : PriceService :=
  { getCandles := fun _ _ _ _ => [⟨1000, 1, 5, 1, 2⟩]
    getCurrentPriceUsd := fun _ => some 3 }

def buyC1 : WalletEvent :=
  { sig := "buy1", ts := 1000, mint := "token1", decimals := 6, qty := 100,
    side := Side.BUY }

def sellC1 : WalletEvent :=
  { sig := "sell1", ts := 2000, mint := "token1", decimals := 6, qty := -50,
    side := Side.SELL }

def lotC1a : Lot :=
  { lotId := "buy1-1000", tokenMint := "token1", buyTime := 1000, buyQty := 100,
    buyCostUsd := 2, remainingQty := 100, matchedSells := [], realizedUsd := 0,
    peakTimestamp := none, peakPriceUsd := none, peakPotentialUsd := 0,
    regretGapUsd := 0 }

def lotC1b : Lot :=
  { lotC1a with
      remainingQty := 50
      matchedSells := [⟨2000, 50, 100⟩] }

def lotC1c : Lot :=
  { lotC1b with
      realizedUsd := 100
      peakTimestamp := some 1000
      peakPriceUsd := some 5
      peakPotentialUsd := 500
      regretGapUsd := 250 }

lemma fifoMatch_C1 : fifoMatch psC1 "token1" sellC1 50 [lotC1a] =
    ([], [lotC1b]) := by
  rw [fifoMatch_cons_stay psC1 "token1" sellC1 50 lotC1a []
    (by norm_num) (by norm_num [lotC1a, epsQty, min_def])]
  norm_num [lotC1a, lotC1b, min_def, psC1, sellC1, firstCloseOrZero, sellFeeUsd]

lemma matchPhase_C1 : matchPhase psC1 "token1" [buyC1, sellC1] =
    ([], [lotC1b]) := by
  unfold matchPhase
  rw [List.foldl_cons, List.foldl_cons, List.foldl_nil]
  rw [show processActivity psC1 "token1" ([], []) buyC1 = ([], [lotC1a]) from rfl]
  show ([] ++ (fifoMatch psC1 "token1" sellC1 50 [lotC1a]).1,
    (fifoMatch psC1 "token1" sellC1 50 [lotC1a]).2) = ([], [lotC1b])
  rw [fifoMatch_C1]
  rfl

lemma processTokenActivities_C1 :
    processTokenActivities psC1 99 "token1" [buyC1, sellC1] = [lotC1c] := by
  unfold processTokenActivities
  rw [matchPhase_C1]
  show List.map (calculateLotMetrics psC1 99) ([] ++ [lotC1b]) = [lotC1c]
  simp only [List.nil_append, List.map_cons, List.map_nil]
  unfold calculateLotMetrics
  norm_num [lotC1b, lotC1a, lotC1c, psC1, lotWindowEnd, lotResolution, peakOf,
    firstCloseOrZero]

theorem lot_conservation_witness :
    lotC1c ∈ matchTraceLots psC1 "token1" [buyC1, sellC1] 2 ++
      processTokenActivities psC1 99 "token1" [buyC1, sellC1] ∧
    |lotC1c.remainingQty + sumMatchedQty lotC1c - lotC1c.buyQty| ≤ epsQty := by
  have hmem : lotC1c ∈ matchTraceLots psC1 "token1" [buyC1, sellC1] 2 ++
      processTokenActivities psC1 99 "token1" [buyC1, sellC1] := by
    rw [processTokenActivities_C1]
    exact List.mem_append_right _ (List.mem_singleton.2 rfl)
  exact ⟨hmem, lot_conservation psC1 99 "token1" [buyC1, sellC1] 2 lotC1c hmem⟩

/-- C10: For every lot, at every point of the FIFO matching fold and in
the final output, `0 ≤ remainingQty ≤ buyQty`: each step matches
`min(need, remainingQty)`, so a SELL can neither drive `remainingQty`
negative nor consume more than the original `buyQty`. -/
theorem fifo_qty_bounds (ps : PriceService) (now : Int) (tokenMint : String)
    (activities : List WalletEvent) (i : Nat) (lot : Lot)
    (hmem : lot ∈ matchTraceLots ps tokenMint activities i ++
      processTokenActivities ps now tokenMint activities) :
    0 ≤ lot.remainingQty ∧ lot.remainingQty ≤ lot.buyQty := by
  have hstep : ∀ (a : WalletEvent) (l : Lot) (need p : ℚ), 0 < need →
      LotBounded l → LotBounded { l with
        matchedSells := l.matchedSells ++
          [⟨a.ts, min need l.remainingQty, p⟩],
        remainingQty := l.remainingQty - min need l.remainingQty } := by
    intro a l need p hneed hl
    have hmin1 : min need l.remainingQty ≤ l.remainingQty := min_le_right _ _
    have hmin0 : 0 ≤ min need l.remainingQty := le_min hneed.le hl.1
    unfold LotBounded at hl ⊢
    dsimp only
    constructor
    · linarith [hl.1]
    · linarith [hl.2]
  have hbuy : ∀ (a : WalletEvent) (price : ℚ),
      LotBounded (buyLot tokenMint a price) := by
    intro a price
    unfold LotBounded buyLot
    exact ⟨abs_nonneg _, le_refl _⟩
  have hbounded : LotBounded lot := by
    rcases List.mem_append.1 hmem with h1 | h2
    · exact matchFold_inv ps tokenMint LotBounded hstep hbuy
        (activities.take i) ([], [])
        (by intro l hl; simp [stateLots] at hl) lot h1
    · unfold processTokenActivities at h2
      dsimp only at h2
      rcases List.mem_map.1 h2 with ⟨y, hy, rfl⟩
      have hyb : LotBounded y := by
        refine matchFold_inv ps tokenMint LotBounded hstep hbuy
          activities ([], []) (by intro l hl; simp [stateLots] at hl) y ?_
        unfold matchPhase at hy
        exact hy
      obtain ⟨hr, -, hb, -, -⟩ := calculateLotMetrics_preserves ps now y
      unfold LotBounded at hyb ⊢
      rw [hr, hb]
      exact hyb
  exact hbounded

def psC10 : PriceService :=
  { getCandles := fun _ _ _ _ => [⟨500, 1, 2, 1, 1⟩]
    getCurrentPriceUsd := fun _ => none }

def buyC10 : WalletEvent :=
  { sig := "b", ts := 500, mint := "m", decimals := 9, qty := 10,
    side := Side.BUY }

def sellC10 : WalletEvent :=
  { sig := "s", ts := 600, mint := "m", decimals := 9, qty := -4,
    side := Side.SELL }

def lotC10a : Lot :=
  { lotId := "b-500", tokenMint := "m", buyTime := 500, buyQty := 10,
    buyCostUsd := 1, remainingQty := 10, matchedSells := [], realizedUsd := 0,
    peakTimestamp := none, peakPriceUsd := none, peakPotentialUsd := 0,
    regretGapUsd := 0 }

def lotC10b : Lot :=
  { lotC10a with
      remainingQty := 6
      matchedSells := [⟨600, 4, 4⟩] }

lemma matchPhase_C10 : matchPhase psC10 "m" [buyC10, sellC10] =
    ([], [lotC10b]) := by
  have hf : fifoMatch psC10 "m" sellC10 4 [lotC10a] = ([], [lotC10b]) := by
    rw [fifoMatch_cons_stay psC10 "m" sellC10 4 lotC10a []
      (by norm_num) (by norm_num [lotC10a, epsQty, min_def])]
    norm_num [lotC10a, lotC10b, min_def, psC10, sellC10, firstCloseOrZero,
      sellFeeUsd]
  unfold matchPhase
  rw [List.foldl_cons, List.foldl_cons, List.foldl_nil]
  rw [show processActivity psC10 "m" ([], []) buyC10 = ([], [lotC10a]) from rfl]
  show ([] ++ (fifoMatch psC10 "m" sellC10 4 [lotC10a]).1,
    (fifoMatch psC10 "m" sellC10 4 [lotC10a]).2) = ([], [lotC10b])
  rw [hf]
  rfl

theorem fifo_qty_bounds_witness :
    lotC10b ∈ matchTraceLots psC10 "m" [buyC10, sellC10] 2 ++
      processTokenActivities psC10 77 "m" [buyC10, sellC10] ∧
    0 ≤ lotC10b.remainingQty ∧ lotC10b.remainingQty ≤ lotC10b.buyQty := by
  have hmem : lotC10b ∈ matchTraceLots psC10 "m" [buyC10, sellC10] 2 ++
      processTokenActivities psC10 77 "m" [buyC10, sellC10] := by
    refine List.mem_append_left _ ?_
    unfold matchTraceLots
    rw [show ([buyC10, sellC10] : List WalletEvent).take 2 = [buyC10, sellC10]
      from rfl]
    show lotC10b ∈ stateLots (matchPhase psC10 "m" [buyC10, sellC10])
    rw [matchPhase_C10]
    simp [stateLots]
  exact ⟨hmem, fifo_qty_bounds psC10 77 "m" [buyC10, sellC10] 2 lotC10b hmem⟩

/-- C7 (amended): For every lot of a reconstruction run whose candle
request over its window `[buyTime, endTime]` returns an empty list, the
lot's `peakTimestamp` and `peakPriceUsd` are null and its
`peakPotentialUsd` keeps its initial value `0` (the source only assigns
`peakPotentialUsd = realizedUsd` in the `catch` handler for a *thrown*
oracle error, not for an empty candle list). -/
theorem empty_candles_peak (ps : PriceService) (now : Int) (tokenMint : String)
    (activities : List WalletEvent) (lot : Lot)
    (hmem : lot ∈ processTokenActivities ps now tokenMint activities)
    (hempty : ps.getCandles lot.tokenMint lot.buyTime (lotWindowEnd now lot)
      (lotResolution now lot) = []) :
    lot.peakTimestamp = none ∧ lot.peakPriceUsd = none ∧
    lot.peakPotentialUsd = 0 := by
  unfold processTokenActivities at hmem
  dsimp only at hmem
  rcases List.mem_map.1 hmem with ⟨y, hy, rfl⟩
  have hP : y.peakTimestamp = none ∧ y.peakPriceUsd = none ∧
      y.peakPotentialUsd = 0 := by
    refine matchFold_inv ps tokenMint
      (fun l => l.peakTimestamp = none ∧ l.peakPriceUsd = none ∧
        l.peakPotentialUsd = 0) ?_ ?_ activities ([], [])
      (by intro l hl; simp [stateLots] at hl) y ?_
    · intro a l need p _ hl
      exact hl
    · intro a price
      unfold buyLot
      exact ⟨rfl, rfl, rfl⟩
    · unfold matchPhase at hy
      exact hy
  obtain ⟨-, hms, -, htm, hbt⟩ := calculateLotMetrics_preserves ps now y
  have hwin : lotWindowEnd now (calculateLotMetrics ps now y) =
      lotWindowEnd now y := by
    unfold lotWindowEnd
    rw [hms]
  have hres : lotResolution now (calculateLotMetrics ps now y) =
      lotResolution now y := by
    unfold lotResolution
    rw [hwin, hbt]
  rw [htm, hbt, hwin, hres] at hempty
  obtain ⟨h1, h2, h3⟩ := calculateLotMetrics_empty_candles ps now y hempty
  exact ⟨h1.trans hP.1, h2.trans hP.2.1, h3.trans hP.2.2⟩

def psC7w : PriceService :=
  { getCandles := fun _ _ _ _ => []
    getCurrentPriceUsd := fun _ => none }

def buyC7w : WalletEvent :=
  { sig := "b7", ts := 1000, mint := "tok7", decimals := 6, qty := 100,
    side := Side.BUY }

def lotC7w : Lot :=
  { lotId := "b7-1000", tokenMint := "tok7", buyTime := 1000, buyQty := 100,
    buyCostUsd := 0, remainingQty := 100, matchedSells := [], realizedUsd := 0,
    peakTimestamp := none, peakPriceUsd := none, peakPotentialUsd := 0,
    regretGapUsd := 0 }

theorem empty_candles_peak_witness :
    lotC7w ∈ processTokenActivities psC7w 2000 "tok7" [buyC7w] ∧
    psC7w.getCandles lotC7w.tokenMint lotC7w.buyTime
      (lotWindowEnd 2000 lotC7w) (lotResolution 2000 lotC7w) = [] ∧
    lotC7w.peakTimestamp = none ∧ lotC7w.peakPriceUsd = none ∧
    lotC7w.peakPotentialUsd = 0 := by
  have heval : processTokenActivities psC7w 2000 "tok7" [buyC7w] = [lotC7w] := by
    unfold processTokenActivities
    rw [show matchPhase psC7w "tok7" [buyC7w] = ([], [lotC7w]) from rfl]
    show List.map (calculateLotMetrics psC7w 2000) ([] ++ [lotC7w]) = [lotC7w]
    simp only [List.nil_append, List.map_cons, List.map_nil]
    unfold calculateLotMetrics
    norm_num [lotC7w, psC7w, lotWindowEnd, lotResolution, firstCloseOrZero]
  have hmem : lotC7w ∈ processTokenActivities psC7w 2000 "tok7" [buyC7w] := by
    rw [heval]
    exact List.mem_singleton.2 rfl
  have hempty : psC7w.getCandles lotC7w.tokenMint lotC7w.buyTime
      (lotWindowEnd 2000 lotC7w) (lotResolution 2000 lotC7w) = [] := rfl
  exact ⟨hmem, hempty,
    empty_candles_peak psC7w 2000 "tok7" [buyC7w] lotC7w hmem hempty⟩

def psC7x : PriceService :=
  { getCandles := fun _ start _ _ => if start = 2000 then [⟨2000, 3, 3, 3, 3⟩] else []
    getCurrentPriceUsd := fun _ => none }

def buyC7x : WalletEvent :=
  { sig := "bx", ts := 1000, mint := "tokx", decimals := 6, qty := 100,
    side := Side.BUY }

def sellC7x : WalletEvent :=
  { sig := "sx", ts := 2000, mint := "tokx", decimals := 6, qty := -50,
    side := Side.SELL }

def lotC7xa : Lot :=
  { lotId := "bx-1000", tokenMint := "tokx", buyTime := 1000, buyQty := 100,
    buyCostUsd := 0, remainingQty := 100, matchedSells := [], realizedUsd := 0,
    peakTimestamp := none, peakPriceUsd := none, peakPotentialUsd := 0,
    regretGapUsd := 0 }

def lotC7xb : Lot :=
  { lotC7xa with
      remainingQty := 50
      matchedSells := [⟨2000, 50, 150⟩] }

def lotC7xc : Lot :=
  { lotC7xb with
      realizedUsd := 150 }

/-- C7 (counterexample): a reconstruction run producing a lot whose
candle request over its window `[buyTime, endTime]` is empty yet whose
`realizedUsd` is `150` while `peakPotentialUsd` stays `0` — refuting
`peakPotentialUsd = realizedUsd` as stated (peak fields are null as
claimed). -/
theorem empty_candles_counterexample :
    processTokenActivities psC7x 9999 "tokx" [buyC7x, sellC7x] = [lotC7xc] ∧
    psC7x.getCandles lotC7xc.tokenMint lotC7xc.buyTime
      (lotWindowEnd 9999 lotC7xc) (lotResolution 9999 lotC7xc) = [] ∧
    lotC7xc.peakTimestamp = none ∧ lotC7xc.peakPriceUsd = none ∧
    lotC7xc.peakPotentialUsd ≠ lotC7xc.realizedUsd := by
  have hf : fifoMatch psC7x "tokx" sellC7x 50 [lotC7xa] = ([], [lotC7xb]) := by
    rw [fifoMatch_cons_stay psC7x "tokx" sellC7x 50 lotC7xa []
      (by norm_num) (by norm_num [lotC7xa, epsQty, min_def])]
    norm_num [lotC7xa, lotC7xb, min_def, psC7x, sellC7x, firstCloseOrZero,
      sellFeeUsd]
  have heval : processTokenActivities psC7x 9999 "tokx" [buyC7x, sellC7x] =
      [lotC7xc] := by
    unfold processTokenActivities
    have hmp : matchPhase psC7x "tokx" [buyC7x, sellC7x] = ([], [lotC7xb]) := by
      unfold matchPhase
      rw [List.foldl_cons, List.foldl_cons, List.foldl_nil]
      rw [show processActivity psC7x "tokx" ([], []) buyC7x = ([], [lotC7xa])
        from rfl]
      show ([] ++ (fifoMatch psC7x "tokx" sellC7x 50 [lotC7xa]).1,
        (fifoMatch psC7x "tokx" sellC7x 50 [lotC7xa]).2) = ([], [lotC7xb])
      rw [hf]
      rfl
    rw [hmp]
    show List.map (calculateLotMetrics psC7x 9999) ([] ++ [lotC7xb]) = [lotC7xc]
    simp only [List.nil_append, List.map_cons, List.map_nil]
    unfold calculateLotMetrics
    norm_num [lotC7xb, lotC7xa, lotC7xc, psC7x, lotWindowEnd, lotResolution,
      firstCloseOrZero]
  refine ⟨heval, ?_, rfl, rfl, by norm_num [lotC7xc, lotC7xb, lotC7xa]⟩
  show psC7x.getCandles "tokx" 1000 (lotWindowEnd 9999 lotC7xc)
    (lotResolution 9999 lotC7xc) = []
  rw [show lotWindowEnd 9999 lotC7xc = 2000 from rfl]
  norm_num [psC7x]

/-! ## Event indexing and idempotent persistence (claim C2) -/

lemma walletEventRows_indices (cache : String → Option TokenMetaR)
    (wallet : String) (events : List WalletEvent) :
    (walletEventRows cache wallet events).map (fun r => r.index) =
      List.range events.length := by
  unfold walletEventRows
  rw [List.map_map]
  have h : ((fun r : WalletTxRow => r.index) ∘
      fun p : Nat × WalletEvent => walletEventRow cache wallet p.2 p.1) =
      Prod.fst := by
    funext p
    rfl
  rw [h, List.enum_map_fst]

lemma upsertWalletTx_fresh (s : List WalletTxRow) (r : WalletTxRow)
    (h : ∀ r' ∈ s, r'.id ≠ r.id) : upsertWalletTx s r = s ++ [r] := by
  unfold upsertWalletTx
  have hc : ¬ (s.any (fun r' => r'.id == r.id) = true) := by
    intro hcon
    rcases List.any_eq_true.1 hcon with ⟨x, hx, hid⟩
    exact h x hx (by simpa using hid)
  rw [if_neg hc]

lemma upsertWalletTx_of_mem (s : List WalletTxRow) (r : WalletTxRow)
    (hex : r ∈ s) (huniq : ∀ x ∈ s, x.id = r.id → x = r) :
    upsertWalletTx s r = s := by
  unfold upsertWalletTx
  have hc : s.any (fun r' => r'.id == r.id) = true :=
    List.any_eq_true.2 ⟨r, hex, by simp⟩
  rw [if_pos hc]
  have h : ∀ x ∈ s, (if x.id == r.id then r else x) = id x := by
    intro x hx
    by_cases hid : x.id = r.id
    · simp [hid, huniq x hx hid]
    · simp [hid]
  rw [List.map_congr_left h, List.map_id]

lemma persistRows_fresh (rows : List WalletTxRow) :
    ∀ (s : List WalletTxRow),
    (∀ r ∈ rows, ∀ r' ∈ s, r'.id ≠ r.id) →
    (rows.map (fun r => r.id)).Nodup →
    rows.foldl upsertWalletTx s = s ++ rows := by
  induction rows with
  | nil => intro s _ _; simp
  | cons r rs ih =>
    intro s hfresh hnodup
    rw [List.foldl_cons,
      upsertWalletTx_fresh s r (fun r' hr' => hfresh r (List.mem_cons_self _ _) r' hr')]
    rw [ih (s ++ [r]) ?_ (by simpa using hnodup.of_cons)]
    · simp
    · intro x hx r' hr'
      rcases List.mem_append.1 hr' with h1 | h2
      · exact hfresh x (List.mem_cons_of_mem _ hx) r' h1
      · rcases List.mem_singleton.1 h2 with rfl
        intro hid
        have hmem : x.id ∈ rs.map (fun r => r.id) := List.mem_map_of_mem _ hx
        rw [← hid] at hmem
        simp only [List.map_cons, List.nodup_cons] at hnodup
        exact hnodup.1 hmem

lemma persistRows_stable (rows : List WalletTxRow) :
    ∀ (t : List WalletTxRow),
    (∀ r ∈ rows, r ∈ t) →
    (∀ r ∈ rows, ∀ x ∈ t, x.id = r.id → x = r) →
    rows.foldl upsertWalletTx t = t := by
  induction rows with
  | nil => intro t _ _; simp
  | cons r rs ih =>
    intro t hmem huniq
    rw [List.foldl_cons,
      upsertWalletTx_of_mem t r (hmem r (List.mem_cons_self _ _))
        (huniq r (List.mem_cons_self _ _))]
    exact ih t (fun x hx => hmem x (List.mem_cons_of_mem _ hx))
      (fun x hx => huniq x (List.mem_cons_of_mem _ hx))

/-- C2 (amended): `persistWalletEvents` indexes the events of one persist
call densely and ascending from 0 across the whole batch (the position in
the batch, not the position within one transaction) and keys rows by
`wallet + "_" + signature + "_" + batchIndex`.  Re-persisting the same
batch into the store it was first persisted into is idempotent; nothing
ties the index to the transaction, so the same transaction persisted
under a different batch composition can receive different indices (see
the counterexample). -/
theorem event_indexing (cache : String → Option TokenMetaR) (store : Store)
    (events : List WalletEvent) (wallet : String)
    (hne : events ≠ [])
    (hfresh : ∀ r ∈ walletEventRows cache wallet events,
      ∀ r' ∈ store.walletTx, r'.id ≠ r.id)
    (hnodup : ((walletEventRows cache wallet events).map (fun r => r.id)).Nodup) :
    (walletEventRows cache wallet events).map (fun r => r.index) =
      List.range events.length ∧
    persistWalletEvents cache store events wallet =
      { store with walletTx := store.walletTx ++ walletEventRows cache wallet events } ∧
    persistWalletEvents cache (persistWalletEvents cache store events wallet)
      events wallet = persistWalletEvents cache store events wallet := by
  have hrows : ∀ x ∈ walletEventRows cache wallet events,
      ∀ y ∈ walletEventRows cache wallet events, x.id = y.id → x = y := by
    intro x hx y hy hxy
    exact List.inj_on_of_nodup_map hnodup hx hy hxy
  have hpersist : persistWalletEvents cache store events wallet =
      { store with walletTx := store.walletTx ++ walletEventRows cache wallet events } := by
    unfold persistWalletEvents
    rw [if_neg hne, persistRows_fresh _ _ hfresh hnodup]
  refine ⟨walletEventRows_indices cache wallet events, hpersist, ?_⟩
  rw [hpersist]
  unfold persistWalletEvents
  rw [if_neg hne]
  dsimp only
  have hstable : (walletEventRows cache wallet events).foldl upsertWalletTx
      (store.walletTx ++ walletEventRows cache wallet events) =
      store.walletTx ++ walletEventRows cache wallet events := by
    refine persistRows_stable _ _ ?_ ?_
    · intro r hr
      exact List.mem_append.2 (Or.inr hr)
    · intro r hr x hx hid
      rcases List.mem_append.1 hx with h1 | h2
      · exact absurd hid (hfresh r hr x h1)
      · exact hrows x h2 r hr hid
  rw [hstable]

def cacheC2 : String → Option TokenMetaR := fun _ => none

def txC2a : HeliusTx :=
  { signature := "sigA"
    slot := 10
    timestamp := some 100
    nativeTransfers := [{ fromUserAccount := some "x"
                          toUserAccount := some "w"
                          amount := some 5 }] }

def txC2b : HeliusTx :=
  { signature := "sigB"
    slot := 11
    timestamp := some 200
    nativeTransfers := [{ fromUserAccount := some "x"
                          toUserAccount := some "w"
                          amount := some 7 }] }

/-- C2 (counterexample): in the batch `[txC2a, txC2b]` the single event of
`txC2b` receives index 1 (not a per-transaction index 0), and persisting
`txC2b` first on its own and then as part of the two-transaction batch
leaves two distinct rows for the same event (keys `w_sigB_0` and
`w_sigB_1`). -/
theorem event_indexing_counterexample :
    (walletEventRows cacheC2 "w" (normalizeTransactions cacheC2 "w" [txC2a, txC2b])).map
      (fun r => (r.signature, r.index)) = [("sigA", 0), ("sigB", 1)] ∧
    ((persistWalletEvents cacheC2
        (persistWalletEvents cacheC2 { rawTx := [], walletTx := [] }
          (normalizeTransactions cacheC2 "w" [txC2b]) "w")
        (normalizeTransactions cacheC2 "w" [txC2a, txC2b]) "w").walletTx.filter
      (fun r => r.signature == "sigB")).length = 2 := by
  constructor
  · rfl
  · rfl

def eventsC2w : List WalletEvent :=
  [{ sig := "sigA", ts := 100, mint := SOL_MINT, decimals := 9, qty := 5,
     side := Side.BUY }]

theorem event_indexing_witness :
    (eventsC2w ≠ [] ∧
      (∀ r ∈ walletEventRows cacheC2 "w" eventsC2w,
        ∀ r' ∈ (Store.mk [] []).walletTx, r'.id ≠ r.id) ∧
      ((walletEventRows cacheC2 "w" eventsC2w).map (fun r => r.id)).Nodup) ∧
    persistWalletEvents cacheC2
        (persistWalletEvents cacheC2 (Store.mk [] []) eventsC2w "w")
        eventsC2w "w" =
      persistWalletEvents cacheC2 (Store.mk [] []) eventsC2w "w" := by
  have h1 : eventsC2w ≠ [] := by simp [eventsC2w]
  have h2 : ∀ r ∈ walletEventRows cacheC2 "w" eventsC2w,
      ∀ r' ∈ (Store.mk [] []).walletTx, r'.id ≠ r.id := by
    intro r _ r' hr'
    simp at hr'
  have h3 : ((walletEventRows cacheC2 "w" eventsC2w).map (fun r => r.id)).Nodup := by
    decide
  exact ⟨⟨h1, h2, h3⟩,
    (event_indexing cacheC2 (Store.mk [] []) eventsC2w "w" h1 h2 h3).2.2⟩

/-! ## Backfill behaviour (claims C3, C4, C5) -/

/-- C3: Evaluating `backfillWallet` at the failing input — a wallet with
no prior sync state and a provider returning an empty page with no cursor.
The run ends with `rawTxCount = 0`, `walletTxCount = 0`, `fullScanAt` set
and `lastBefore = null` as the claim states, but `pagesFetched = 1`, not
`0`: the loop increments `pagesFetched` before the empty-page check.  The
repository's own test (src/unnamed/part_000, "should handle empty
response from Helius") asserts `pagesFetched = 0` against this same code
path. -/
theorem backfill_empty_history (cache : String → Option TokenMetaR)
    (wallet : String) (now : Int) (store : Store) :
    backfillWallet cache [ProviderResult.page [] none] wallet 1000 now
      store none =
    RunOutcome.ok
      { initStats with
          pagesFetched := 1
          firstSlot := some ⊥
          lastSlot := some ⊤ }
      store
      { wallet := wallet, lastBefore := none, verifiedSlot := none,
        fullScanAt := some now } := by
  rfl

/-- C4 (amended): a 400 response whose body matches `invalid before`
clears the cursor and retries the same page, exactly once per backfill
run; a second occurrence in the same run stops the paging loop, after
which backfill still returns normal stats — no failure is surfaced to the
caller (`backfillWallet` returns `RunOutcome.ok` for every script). -/
theorem cursor_selfheal_once (cache : String → Option TokenMetaR)
    (wallet : String) (maxPages : Nat) (rest : List ProviderResult)
    (page : Nat) (before : Option String) (stats : IndexerStats)
    (store : Store) (sync : SyncState) (status : Nat) (msg : String)
    (hstatus : status = 400) (hmsg : containsInvalidBefore msg = true)
    (hpage : page ≤ maxPages) :
    (backfillLoop cache wallet maxPages
        (ProviderResult.httpError status msg :: rest) page false before
        stats store sync =
      backfillLoop cache wallet maxPages rest page true none stats store sync) ∧
    (backfillLoop cache wallet maxPages
        (ProviderResult.httpError status msg :: rest) page true before
        stats store sync = (stats, store, sync)) ∧
    ∀ (script : List ProviderResult) (now : Int) (syncOpt : Option SyncState),
      ∃ s t u, backfillWallet cache script wallet maxPages now store syncOpt =
        RunOutcome.ok s t u := by
  have hnot : ¬ page > maxPages := not_lt.2 hpage
  refine ⟨?_, ?_, ?_⟩
  · rw [backfillLoop, if_neg hnot]
    rw [if_pos ⟨hstatus, hmsg, rfl⟩]
  · rw [backfillLoop, if_neg hnot]
    rw [if_neg]
    rintro ⟨-, -, hfalse⟩
    exact absurd hfalse (by decide)
  · intro script now syncOpt
    exact ⟨_, _, _, rfl⟩

theorem cursor_selfheal_once_witness :
    ((400 : Nat) = 400 ∧
      containsInvalidBefore "Invalid before signature" = true ∧
      (1 : Nat) ≤ 1000) ∧
    backfillLoop (fun _ => none) "w" 1000
      [ProviderResult.httpError 400 "Invalid before signature"] 1 true none
      initStats (Store.mk [] []) (SyncState.mk "w" none none none) =
      (initStats, Store.mk [] [], SyncState.mk "w" none none none) := by
  refine ⟨⟨rfl, by decide, by decide⟩, ?_⟩
  exact (cursor_selfheal_once (fun _ => none) "w" 1000 [] 1 none initStats
    (Store.mk [] []) (SyncState.mk "w" none none none) 400
    "Invalid before signature" rfl (by decide) (by decide)).2.1

/-- C4 (counterexample): two `invalid before` 400 responses in one run.
The first clears the cursor and retries; the second stops the loop, and
`backfillWallet` completes normally — it returns `RunOutcome.ok` with the
zeroed stats and a stamped `fullScanAt`, not a surfaced failure. -/
theorem cursor_selfheal_counterexample :
    backfillWallet (fun _ => none)
      [ProviderResult.httpError 400 "Invalid before signature",
        ProviderResult.httpError 400 "Invalid before signature"]
      "w" 1000 0 (Store.mk [] []) none =
    RunOutcome.ok initStats (Store.mk [] [])
      { wallet := "w", lastBefore := none, verifiedSlot := none,
        fullScanAt := some 0 } := by
  rfl

/-- C5 (amended): a provider error other than the self-healing cursor
case (in particular any non-cursor 4xx) is fatal to the current page and
to the rest of the run — the loop stops there — but it is not surfaced:
the caught error only logs, `backfillWallet` returns the stats
accumulated so far as a normal `RunOutcome.ok` for every script. -/
theorem non_cursor_4xx_break (cache : String → Option TokenMetaR)
    (wallet : String) (maxPages : Nat) (rest : List ProviderResult)
    (page : Nat) (cursorReset : Bool) (before : Option String)
    (stats : IndexerStats) (store : Store) (sync : SyncState)
    (status : Nat) (msg : String)
    (h4xx : 400 ≤ status ∧ status < 500)
    (hnotcursor : status = 400 → containsInvalidBefore msg = false)
    (hpage : page ≤ maxPages) :
    backfillLoop cache wallet maxPages
      (ProviderResult.httpError status msg :: rest) page cursorReset before
      stats store sync = (stats, store, sync) ∧
    ∀ (script : List ProviderResult) (now : Int) (syncOpt : Option SyncState)
      (store' : Store),
      ∃ s t u, backfillWallet cache script wallet maxPages now store' syncOpt =
        RunOutcome.ok s t u := by
  refine ⟨?_, ?_⟩
  · rw [backfillLoop, if_neg (not_lt.2 hpage)]
    rw [if_neg]
    rintro ⟨h1, h2, -⟩
    rw [hnotcursor h1] at h2
    exact absurd h2 (by decide)
  · intro script now syncOpt store'
    exact ⟨_, _, _, rfl⟩

theorem non_cursor_4xx_break_witness :
    (((400 : Nat) ≤ 404 ∧ (404 : Nat) < 500) ∧ (1 : Nat) ≤ 1000) ∧
    backfillLoop (fun _ => none) "w" 1000
      [ProviderResult.httpError 404 "Not found"] 1 false none
      initStats (Store.mk [] []) (SyncState.mk "w" none none none) =
      (initStats, Store.mk [] [], SyncState.mk "w" none none none) := by
  refine ⟨⟨⟨by decide, by decide⟩, by decide⟩, ?_⟩
  exact (non_cursor_4xx_break (fun _ => none) "w" 1000 [] 1 false none
    initStats (Store.mk [] []) (SyncState.mk "w" none none none) 404
    "Not found" ⟨by decide, by decide⟩ (by decide) (by decide)).1

/-- C5 (counterexample): a 404 from the provider on the first page.  The
claim says backfill ends in an error result; the code instead returns a
normal `RunOutcome.ok` with zeroed stats and `fullScanAt` stamped. -/
theorem non_cursor_4xx_counterexample :
    backfillWallet (fun _ => none)
      [ProviderResult.httpError 404 "Not found"] "w" 1000 0
      (Store.mk [] []) none =
    RunOutcome.ok initStats (Store.mk [] [])
      { wallet := "w", lastBefore := none, verifiedSlot := none,
        fullScanAt := some 0 } := by
  rfl

/-! ## Tail sync (claim C6) -/

lemma head_dropWhile_false (p : HeliusTx → Bool) :
    ∀ (l : List HeliusTx) (x : HeliusTx),
      (l.dropWhile p).head? = some x → p x = false := by
  intro l
  induction l with
  | nil => intro x h; simp [List.dropWhile] at h
  | cons y ys ih =>
    intro x h
    rw [List.dropWhile_cons] at h
    by_cases hy : p y = true
    · rw [if_pos hy] at h
      exact ih x h
    · rw [if_neg hy] at h
      simp only [List.head?_cons, Option.some.injEq] at h
      rw [← h]
      exact Bool.eq_false_iff.2 hy

/-- C6 (amended): with an existing sync state and a nonempty prefix of
not-yet-stored items, `syncTail` persists exactly the prefix of items
preceding the first already-stored signature (all items when none is
stored), and afterwards `SyncState.verifiedSlot` equals the maximum slot
among the newly persisted items — it overwrites, it does not take the
maximum with the previous value. -/
theorem tail_sync_front (cache : String → Option TokenMetaR)
    (items : List HeliusTx) (nb : Option String) (wallet : String)
    (store : Store) (sync : SyncState)
    (hne : items.takeWhile (fun tx =>
      !(store.rawTx.any (fun r => r.signature == tx.signature))) ≠ []) :
    (syncTail cache (ProviderResult.page items nb) wallet store (some sync) =
      RunOutcome.ok
        { initStats with
            pagesFetched := 1
            rawTxCount := (items.takeWhile (fun tx =>
              !(store.rawTx.any (fun r => r.signature == tx.signature)))).length
            walletTxCount := (normalizeTransactions cache wallet
              (items.takeWhile (fun tx =>
                !(store.rawTx.any (fun r => r.signature == tx.signature))))).length
            firstSlot := some (maxSlots ((items.takeWhile (fun tx =>
              !(store.rawTx.any (fun r => r.signature == tx.signature)))).map
                (fun tx => tx.slot)))
            lastSlot := some (minSlots ((items.takeWhile (fun tx =>
              !(store.rawTx.any (fun r => r.signature == tx.signature)))).map
                (fun tx => tx.slot)))
            verifiedSlot := some (maxSlotsInt ((items.takeWhile (fun tx =>
              !(store.rawTx.any (fun r => r.signature == tx.signature)))).map
                (fun tx => tx.slot))) }
        (persistWalletEvents cache
          (persistRawTransactions store (items.takeWhile (fun tx =>
            !(store.rawTx.any (fun r => r.signature == tx.signature)))))
          (normalizeTransactions cache wallet (items.takeWhile (fun tx =>
            !(store.rawTx.any (fun r => r.signature == tx.signature)))))
          wallet)
        { sync with verifiedSlot := some (maxSlotsInt ((items.takeWhile (fun tx =>
            !(store.rawTx.any (fun r => r.signature == tx.signature)))).map
              (fun tx => tx.slot))) }) ∧
    (items.takeWhile (fun tx =>
        !(store.rawTx.any (fun r => r.signature == tx.signature))) ++
      items.dropWhile (fun tx =>
        !(store.rawTx.any (fun r => r.signature == tx.signature))) = items) ∧
    (∀ tx ∈ items.takeWhile (fun tx =>
        !(store.rawTx.any (fun r => r.signature == tx.signature))),
      ∀ r ∈ store.rawTx, ¬ r.signature = tx.signature) ∧
    (∀ tx, (items.dropWhile (fun tx =>
        !(store.rawTx.any (fun r => r.signature == tx.signature)))).head? =
          some tx →
      ∃ r ∈ store.rawTx, r.signature = tx.signature) := by
  have hitems : ¬ items = [] := by
    intro h
    rw [h] at hne
    simp at hne
  refine ⟨?_, List.takeWhile_append_dropWhile _ _, ?_, ?_⟩
  · unfold syncTail
    dsimp only
    rw [if_neg hitems, if_neg hne]
  · intro tx htx r hr hsig
    have hp := List.mem_takeWhile_imp htx
    have hp' : (store.rawTx.any fun r => r.signature == tx.signature) = false := by
      cases hany : (store.rawTx.any fun r => r.signature == tx.signature) with
      | false => rfl
      | true => rw [hany] at hp; exact absurd hp (by decide)
    have hbeq : (r.signature == tx.signature) = true := by simp [hsig]
    have hmem : (store.rawTx.any fun r => r.signature == tx.signature) = true :=
      List.any_eq_true.2 ⟨r, hr, hbeq⟩
    rw [hp'] at hmem
    exact absurd hmem (by decide)
  · intro tx htx
    have hp := head_dropWhile_false _ items tx htx
    have hp' : (store.rawTx.any fun r => r.signature == tx.signature) = true := by
      cases hany : (store.rawTx.any fun r => r.signature == tx.signature) with
      | true => rfl
      | false => rw [hany] at hp; exact absurd hp (by decide)
    rcases List.any_eq_true.1 hp' with ⟨r, hr, hsig⟩
    exact ⟨r, hr, by simpa using hsig⟩

def txC6 : HeliusTx :=
  { signature := "n1"
    slot := 1003
    timestamp := some 1 }

theorem tail_sync_front_witness :
    (([txC6] : List HeliusTx).takeWhile (fun tx =>
      !((Store.mk [] []).rawTx.any (fun r => r.signature == tx.signature))) ≠ []) ∧
    syncTail (fun _ => none) (ProviderResult.page [txC6] none) "w"
      (Store.mk [] []) (some (SyncState.mk "w" (some "old") (some 2000) none)) =
    RunOutcome.ok
      { initStats with
          pagesFetched := 1
          rawTxCount := 1
          firstSlot := some (1003 : Int)
          lastSlot := some (1003 : Int)
          verifiedSlot := some 1003 }
      (Store.mk [RawTxRow.mk "n1" 1003 (some 1) txC6] [])
      (SyncState.mk "w" (some "old") (some 1003) none) := by
  have hne : (([txC6] : List HeliusTx).takeWhile (fun tx =>
      !((Store.mk [] []).rawTx.any (fun r => r.signature == tx.signature))) ≠ []) := by
    decide
  refine ⟨hne, ?_⟩
  rw [(tail_sync_front (fun _ => none) [txC6] none "w" (Store.mk [] [])
    (SyncState.mk "w" (some "old") (some 2000) none) hne).1]
  rfl

/-- C6 (counterexample): previous `verifiedSlot = 2000`, one new item at
slot `1003`.  The code sets `verifiedSlot` to `1003`, whereas the claim
demands `max 2000 1003 = 2000`. -/
theorem tail_sync_counterexample :
    syncTail (fun _ => none) (ProviderResult.page [txC6] none) "w"
      (Store.mk [] []) (some (SyncState.mk "w" (some "old") (some 2000) none)) =
    RunOutcome.ok
      { initStats with
          pagesFetched := 1
          rawTxCount := 1
          firstSlot := some (1003 : Int)
          lastSlot := some (1003 : Int)
          verifiedSlot := some 1003 }
      (Store.mk [RawTxRow.mk "n1" 1003 (some 1) txC6] [])
      (SyncState.mk "w" (some "old") (some 1003) none) ∧
    (1003 : Int) ≠ max 2000 1003 := by
  exact ⟨rfl, by decide⟩

/-! ## Reconciliation (claim C8) -/

lemma mem_insertSorted (s x : String) :
    ∀ (l : List String), x ∈ insertSorted s l ↔ x = s ∨ x ∈ l := by
  intro l
  induction l with
  | nil => simp [insertSorted]
  | cons t ts ih =>
    unfold insertSorted
    by_cases h : s ≤ t
    · rw [if_pos h]
      simp [List.mem_cons]
    · rw [if_neg h]
      simp only [List.mem_cons, ih]
      tauto

lemma mem_sortStrings (x : String) :
    ∀ (l : List String), x ∈ sortStrings l ↔ x ∈ l := by
  intro l
  induction l with
  | nil => simp [sortStrings]
  | cons t ts ih =>
    show x ∈ insertSorted t (sortStrings ts) ↔ _
    rw [mem_insertSorted, ih]
    simp [List.mem_cons]

lemma sorted_insertSorted (s : String) :
    ∀ (l : List String), l.Sorted (· ≤ ·) →
      (insertSorted s l).Sorted (· ≤ ·) := by
  intro l
  induction l with
  | nil => intro _; simp [insertSorted]
  | cons t ts ih =>
    intro hsorted
    unfold insertSorted
    rcases List.sorted_cons.1 hsorted with ⟨hall, hts⟩
    by_cases h : s ≤ t
    · rw [if_pos h]
      exact List.sorted_cons.2 ⟨by
        intro b hb
        rcases List.mem_cons.1 hb with rfl | hb'
        · exact h
        · exact le_trans h (hall b hb'), hsorted⟩
    · rw [if_neg h]
      refine List.sorted_cons.2 ⟨?_, ih hts⟩
      intro b hb
      rcases (mem_insertSorted s b ts).1 hb with rfl | hb'
      · exact le_of_not_le h
      · exact hall b hb'

lemma sortStrings_sorted : ∀ (l : List String),
    (sortStrings l).Sorted (· ≤ ·) := by
  intro l
  induction l with
  | nil => simp [sortStrings]
  | cons t ts ih => exact sorted_insertSorted t (sortStrings ts) ih

lemma insertSorted_of_sorted (s : String) (l : List String)
    (h : (s :: l).Sorted (· ≤ ·)) : insertSorted s l = s :: l := by
  cases l with
  | nil => rfl
  | cons t ts =>
    unfold insertSorted
    rw [if_pos ((List.sorted_cons.1 h).1 t (List.mem_cons_self _ _))]

lemma sortStrings_of_sorted : ∀ (l : List String),
    l.Sorted (· ≤ ·) → sortStrings l = l := by
  intro l
  induction l with
  | nil => intro _; rfl
  | cons t ts ih =>
    intro h
    show insertSorted t (sortStrings ts) = t :: ts
    rw [ih (List.sorted_cons.1 h).2]
    exact insertSorted_of_sorted t ts h

lemma sortStrings_idem (l : List String) :
    sortStrings (sortStrings l) = sortStrings l :=
  sortStrings_of_sorted (sortStrings l) (sortStrings_sorted l)

lemma computeSignatureHash_sortStrings (sha : String → String)
    (l : List String) :
    computeSignatureHash sha (sortStrings l) = computeSignatureHash sha l := by
  unfold computeSignatureHash
  rw [sortStrings_idem]

lemma persistWalletEvents_rawTx (cache : String → Option TokenMetaR)
    (store : Store) (events : List WalletEvent) (wallet : String) :
    (persistWalletEvents cache store events wallet).rawTx = store.rawTx := by
  unfold persistWalletEvents
  by_cases h : events = []
  · rw [if_pos h]
  · rw [if_neg h]

lemma mem_sigsInRange (store : Store) (fromSlot toSlot : Int) (s : String) :
    s ∈ sigsInRange store fromSlot toSlot ↔
      ∃ r ∈ store.rawTx, r.signature = s ∧ fromSlot ≤ r.slot ∧ r.slot ≤ toSlot := by
  unfold sigsInRange
  simp only [List.mem_map, List.mem_filter, decide_eq_true_eq]
  constructor
  · rintro ⟨r, ⟨hr, hrange⟩, rfl⟩
    exact ⟨r, hr, rfl, hrange⟩
  · rintro ⟨r, hr, rfl, hrange⟩
    exact ⟨r, ⟨hr, hrange⟩, rfl⟩

lemma sig_upsertRawTx_preserved (rows : List RawTxRow) (row : RawTxRow)
    (fromSlot toSlot : Int) (s : String)
    (hrow : fromSlot ≤ row.slot ∧ row.slot ≤ toSlot)
    (h : ∃ r ∈ rows, r.signature = s ∧ fromSlot ≤ r.slot ∧ r.slot ≤ toSlot) :
    ∃ r ∈ upsertRawTx rows row,
      r.signature = s ∧ fromSlot ≤ r.slot ∧ r.slot ≤ toSlot := by
  rcases h with ⟨r, hr, hsig, hrange⟩
  unfold upsertRawTx
  by_cases hany : rows.any (fun r0 => r0.signature == row.signature) = true
  · rw [if_pos hany]
    by_cases heq : r.signature = row.signature
    · have himg := List.mem_map_of_mem
        (fun r0 => if r0.signature == row.signature then row else r0) hr
      dsimp only at himg
      rw [if_pos (show (r.signature == row.signature) = true by simp [heq])]
        at himg
      exact ⟨row, himg, by rw [← heq, hsig], hrow⟩
    · have himg := List.mem_map_of_mem
        (fun r0 => if r0.signature == row.signature then row else r0) hr
      dsimp only at himg
      rw [if_neg (show ¬ ((r.signature == row.signature) = true) by simp [heq])]
        at himg
      exact ⟨r, himg, hsig, hrange⟩
  · rw [if_neg hany]
    exact ⟨r, List.mem_append.2 (Or.inl hr), hsig, hrange⟩

lemma sig_upsertRawTx_self (rows : List RawTxRow) (row : RawTxRow)
    (fromSlot toSlot : Int)
    (hrow : fromSlot ≤ row.slot ∧ row.slot ≤ toSlot) :
    ∃ r ∈ upsertRawTx rows row,
      r.signature = row.signature ∧ fromSlot ≤ r.slot ∧ r.slot ≤ toSlot := by
  unfold upsertRawTx
  by_cases hany : rows.any (fun r0 => r0.signature == row.signature) = true
  · rw [if_pos hany]
    rcases List.any_eq_true.1 hany with ⟨r0, hr0, hbeq⟩
    have himg := List.mem_map_of_mem
      (fun r1 => if r1.signature == row.signature then row else r1) hr0
    dsimp only at himg
    rw [if_pos hbeq] at himg
    exact ⟨row, himg, rfl, hrow⟩
  · rw [if_neg hany]
    exact ⟨row, List.mem_append.2 (Or.inr (List.mem_singleton.2 rfl)), rfl, hrow⟩

lemma persistRaw_fold_inRange (fromSlot toSlot : Int) :
    ∀ (txs : List HeliusTx) (rows : List RawTxRow) (s : String),
      (∀ tx ∈ txs, fromSlot ≤ tx.slot ∧ tx.slot ≤ toSlot) →
      ((∃ r ∈ rows, r.signature = s ∧ fromSlot ≤ r.slot ∧ r.slot ≤ toSlot) ∨
        ∃ tx ∈ txs, tx.signature = s) →
      ∃ r ∈ txs.foldl
          (fun rs tx => upsertRawTx rs ⟨tx.signature, tx.slot, tx.timestamp, tx⟩)
          rows,
        r.signature = s ∧ fromSlot ≤ r.slot ∧ r.slot ≤ toSlot := by
  intro txs
  induction txs with
  | nil =>
    intro rows s _ h
    rw [List.foldl_nil]
    rcases h with h | ⟨tx, htx, -⟩
    · exact h
    · simp at htx
  | cons tx0 txs' ih =>
    intro rows s hrange h
    rw [List.foldl_cons]
    apply ih _ s (fun tx htx => hrange tx (List.mem_cons_of_mem _ htx))
    rcases h with h | ⟨tx, htx, hsig⟩
    · exact Or.inl (sig_upsertRawTx_preserved rows _ fromSlot toSlot s
        (hrange tx0 (List.mem_cons_self _ _)) h)
    · rcases List.mem_cons.1 htx with rfl | htx'
      · refine Or.inl ?_
        have hself := sig_upsertRawTx_self rows
          ⟨tx.signature, tx.slot, tx.timestamp, tx⟩ fromSlot toSlot
          (hrange tx (List.mem_cons_self _ _))
        exact hsig ▸ hself
      · exact Or.inr ⟨tx, htx', hsig⟩

lemma fetch_inRange (fromSlot toSlot : Int) :
    ∀ (script : List (List HeliusTx)),
      ∀ tx ∈ fetchTransactionsInSlotRange script fromSlot toSlot,
        fromSlot ≤ tx.slot ∧ tx.slot ≤ toSlot := by
  intro script
  induction script with
  | nil =>
    intro tx htx
    rw [fetchTransactionsInSlotRange] at htx
    simp at htx
  | cons items rest ih =>
    intro tx htx
    rw [fetchTransactionsInSlotRange] at htx
    by_cases hempty : items = []
    · rw [if_pos hempty] at htx
      simp at htx
    · rw [if_neg hempty] at htx
      dsimp only at htx
      by_cases hmin : minSlotsInt (items.map (fun tx => tx.slot)) < fromSlot
      · rw [if_pos hmin] at htx
        have hf := List.mem_filter.1 htx
        simpa using hf.2
      · rw [if_neg hmin] at htx
        rcases List.mem_append.1 htx with h1 | h2
        · have hf := List.mem_filter.1 h1
          simpa using hf.2
        · exact ih tx h2

lemma contains_iff_mem_str (l : List String) (s : String) :
    l.contains s = true ↔ s ∈ l := by
  induction l with
  | nil => simp
  | cons x xs ih => simp

lemma sigsInRange_persistWalletEvents (cache : String → Option TokenMetaR)
    (store : Store) (events : List WalletEvent) (wallet : String)
    (fromSlot toSlot : Int) :
    sigsInRange (persistWalletEvents cache store events wallet) fromSlot toSlot =
      sigsInRange store fromSlot toSlot := by
  unfold sigsInRange
  rw [persistWalletEvents_rawTx]

/-- C8: For every reconciliation run over provider transactions fetched
for the slot range, the recorded `signatureSetHash` is the SHA-256 (the
abstract digest `sha`) of the post-repair stored signatures in the range,
sorted and joined; the audit row carries exactly that result; and the
result is `ok` precisely when the hash over the provider's signature set
equals the hash over the (post-repair) stored set and the post-repair
missing-signature set is empty. -/
theorem reconcile_hash_ok (sha : String → String)
    (cache : String → Option TokenMetaR) (fetched : List HeliusTx)
    (wallet : String) (fromSlot toSlot : Int) (store : Store)
    (audits : List AuditRow)
    (hrange : ∀ tx ∈ fetched, fromSlot ≤ tx.slot ∧ tx.slot ≤ toSlot) :
    ((reconcileSlotRange sha cache fetched wallet fromSlot toSlot store
        audits).1.hash =
      computeSignatureHash sha (sigsInRange
        (reconcileSlotRange sha cache fetched wallet fromSlot toSlot store
          audits).2.1 fromSlot toSlot)) ∧
    ((reconcileSlotRange sha cache fetched wallet fromSlot toSlot store
        audits).2.2 =
      audits ++ [auditOf (reconcileSlotRange sha cache fetched wallet fromSlot
        toSlot store audits).1]) ∧
    ((reconcileSlotRange sha cache fetched wallet fromSlot toSlot store
        audits).1.ok = true ↔
      (computeSignatureHash sha (fetched.map (fun tx => tx.signature)) =
        (reconcileSlotRange sha cache fetched wallet fromSlot toSlot store
          audits).1.hash ∧
        (fetched.map (fun tx => tx.signature)).filter (fun s =>
          !((sigsInRange (reconcileSlotRange sha cache fetched wallet fromSlot
              toSlot store audits).2.1 fromSlot toSlot).contains s)) = [])) := by
  unfold reconcileSlotRange
  dsimp only
  by_cases hmiss : (sortStrings (fetched.map (fun tx => tx.signature))).filter
      (fun s => !((sortStrings (sigsInRange store fromSlot toSlot)).contains s))
      ≠ []
  · rw [if_pos hmiss]
    dsimp only
    -- every provider signature is in the repaired store's slot range
    have hcover : ∀ s ∈ fetched.map (fun tx => tx.signature),
        s ∈ sigsInRange (persistWalletEvents cache
          (persistRawTransactions store (fetched.filter (fun tx =>
            ((sortStrings (fetched.map (fun tx => tx.signature))).filter
              (fun s => !((sortStrings (sigsInRange store fromSlot
                toSlot)).contains s))).contains tx.signature)))
          (normalizeTransactions cache wallet (fetched.filter (fun tx =>
            ((sortStrings (fetched.map (fun tx => tx.signature))).filter
              (fun s => !((sortStrings (sigsInRange store fromSlot
                toSlot)).contains s))).contains tx.signature))) wallet)
          fromSlot toSlot := by
      intro s hs
      rw [sigsInRange_persistWalletEvents]
      rw [mem_sigsInRange]
      show ∃ r ∈ (persistRawTransactions store _).rawTx, _
      unfold persistRawTransactions
      dsimp only
      apply persistRaw_fold_inRange fromSlot toSlot _ store.rawTx s
      · intro tx htx
        exact hrange tx (List.mem_filter.1 htx).1
      · by_cases hsm : s ∈ (sortStrings (fetched.map (fun tx =>
            tx.signature))).filter (fun s =>
              !((sortStrings (sigsInRange store fromSlot toSlot)).contains s))
        · rcases List.mem_map.1 hs with ⟨tx, htx, rfl⟩
          refine Or.inr ⟨tx, List.mem_filter.2 ⟨htx, ?_⟩, rfl⟩
          simpa using (contains_iff_mem_str _ _).2 hsm
        · refine Or.inl ?_
          have hss : s ∈ sortStrings (sigsInRange store fromSlot toSlot) := by
            by_contra hnotss
            apply hsm
            refine List.mem_filter.2 ⟨(mem_sortStrings s _).2 hs, ?_⟩
            simp only [Bool.not_eq_true']
            cases hc : (sortStrings (sigsInRange store fromSlot
                toSlot)).contains s with
            | false => rfl
            | true => exact absurd ((contains_iff_mem_str _ _).1 hc) hnotss
          have := (mem_sigsInRange store fromSlot toSlot s).1
            ((mem_sortStrings s _).1 hss)
          exact this
    have hfilter : (fetched.map (fun tx => tx.signature)).filter (fun s =>
        !((sigsInRange (persistWalletEvents cache
          (persistRawTransactions store (fetched.filter (fun tx =>
            ((sortStrings (fetched.map (fun tx => tx.signature))).filter
              (fun s => !((sortStrings (sigsInRange store fromSlot
                toSlot)).contains s))).contains tx.signature)))
          (normalizeTransactions cache wallet (fetched.filter (fun tx =>
            ((sortStrings (fetched.map (fun tx => tx.signature))).filter
              (fun s => !((sortStrings (sigsInRange store fromSlot
                toSlot)).contains s))).contains tx.signature))) wallet)
          fromSlot toSlot).contains s)) = [] := by
      rw [List.filter_eq_nil]
      intro s hs
      simp only [Bool.not_eq_true', Bool.not_eq_false]
      exact (contains_iff_mem_str _ _).2 (hcover s hs)
    refine ⟨computeSignatureHash_sortStrings sha _, rfl, ?_⟩
    rw [hfilter]
    constructor
    · intro hok
      refine ⟨?_, rfl⟩
      rw [← computeSignatureHash_sortStrings sha
        (fetched.map (fun tx => tx.signature))]
      exact beq_iff_eq.1 hok
    · rintro ⟨heq, -⟩
      apply beq_iff_eq.2
      rw [← heq, computeSignatureHash_sortStrings]
  · rw [if_neg hmiss]
    dsimp only
    have hmeq : (sortStrings (fetched.map (fun tx => tx.signature))).filter
        (fun s => !((sortStrings (sigsInRange store fromSlot
          toSlot)).contains s)) = [] := not_ne_iff.1 hmiss
    have hcover : ∀ s ∈ fetched.map (fun tx => tx.signature),
        s ∈ sigsInRange store fromSlot toSlot := by
      intro s hs
      have hs' : s ∈ sortStrings (fetched.map (fun tx => tx.signature)) :=
        (mem_sortStrings s _).2 hs
      have := List.filter_eq_nil.1 hmeq s hs'
      simp only [Bool.not_eq_true', Bool.not_eq_false] at this
      exact (mem_sortStrings s _).1 ((contains_iff_mem_str _ _).1 this)
    have hfilter : (fetched.map (fun tx => tx.signature)).filter (fun s =>
        !((sigsInRange store fromSlot toSlot).contains s)) = [] := by
      rw [List.filter_eq_nil]
      intro s hs
      simp only [Bool.not_eq_true', Bool.not_eq_false]
      exact (contains_iff_mem_str _ _).2 (hcover s hs)
    refine ⟨computeSignatureHash_sortStrings sha _, rfl, ?_⟩
    rw [hmeq, hfilter]
    constructor
    · intro hok
      simp only [Bool.and_eq_true] at hok
      rcases hok with ⟨hbeq, -⟩
      refine ⟨?_, rfl⟩
      rw [← computeSignatureHash_sortStrings sha
        (fetched.map (fun tx => tx.signature))]
      exact beq_iff_eq.1 hbeq
    · rintro ⟨heq, -⟩
      simp only [Bool.and_eq_true]
      refine ⟨?_, rfl⟩
      apply beq_iff_eq.2
      rw [← heq, computeSignatureHash_sortStrings]

def txC8 : HeliusTx :=
  { signature := "s1"
    slot := 5 }

theorem reconcile_hash_ok_witness :
    (∀ tx ∈ ([txC8] : List HeliusTx), (0 : Int) ≤ tx.slot ∧ tx.slot ≤ 10) ∧
    ((reconcileSlotRange (fun s => s) (fun _ => none) [txC8] "w" 0 10
        (Store.mk [] []) []).1.ok = true ↔
      (computeSignatureHash (fun s => s)
          (([txC8] : List HeliusTx).map (fun tx => tx.signature)) =
        (reconcileSlotRange (fun s => s) (fun _ => none) [txC8] "w" 0 10
          (Store.mk [] []) []).1.hash ∧
        (([txC8] : List HeliusTx).map (fun tx => tx.signature)).filter (fun s =>
          !((sigsInRange (reconcileSlotRange (fun s => s) (fun _ => none)
              [txC8] "w" 0 10 (Store.mk [] []) []).2.1 0 10).contains s)) =
          [])) := by
  have hr : ∀ tx ∈ ([txC8] : List HeliusTx),
      (0 : Int) ≤ tx.slot ∧ tx.slot ≤ 10 := by decide
  exact ⟨hr, (reconcile_hash_ok (fun s => s) (fun _ => none) [txC8] "w" 0 10
    (Store.mk [] []) [] hr).2.2⟩

/-! ## Token metadata resolver (claim C9) -/

lemma cacheGet_set_self (k : String) (v : TokenMetaR) :
    ∀ (c : MetaCache), cacheGet (cacheSet c k v) k = some v := by
  intro c
  induction c with
  | nil => simp [cacheSet, cacheGet]
  | cons p ps ih =>
    unfold cacheSet
    by_cases hp : p.1 = k
    · rw [if_pos hp]
      simp [cacheGet]
    · rw [if_neg hp]
      unfold cacheGet
      rw [if_neg hp]
      exact ih

lemma cacheGet_set_ne (k k' : String) (v : TokenMetaR) (hne : k' ≠ k) :
    ∀ (c : MetaCache), cacheGet (cacheSet c k v) k' = cacheGet c k' := by
  intro c
  induction c with
  | nil =>
    simp only [cacheSet, cacheGet]
    rw [if_neg (by simpa using hne.symm)]
  | cons p ps ih =>
    unfold cacheSet
    by_cases hp : p.1 = k
    · rw [if_pos hp]
      unfold cacheGet
      rw [if_neg (by simpa [hp] using hne.symm)]
      rw [if_neg (by rw [hp]; simpa using hne.symm)]
    · rw [if_neg hp]
      unfold cacheGet
      by_cases hp' : p.1 = k'
      · rw [if_pos hp', if_pos hp']
      · rw [if_neg hp', if_neg hp']
        exact ih

lemma isSome_cacheGet_set (c : MetaCache) (k k' : String) (v : TokenMetaR)
    (h : (cacheGet c k').isSome) : (cacheGet (cacheSet c k v) k').isSome := by
  by_cases hk : k' = k
  · rw [hk, cacheGet_set_self]
    rfl
  · rw [cacheGet_set_ne k k' v hk]
    exact h

/-- The cache returned by `getTokenMeta` is the input cache, possibly
with one entry written at the looked-up mint. -/
lemma getTokenMeta_cache_shape (src : MetaSources) (cache : MetaCache)
    (mint : String) (hint : Option Nat) :
    (getTokenMeta src cache mint hint).2 = cache ∨
    ∃ x, (getTokenMeta src cache mint hint).2 = cacheSet cache mint x := by
  unfold getTokenMeta
  cases cacheGet cache mint with
  | some cached => exact Or.inl rfl
  | none =>
    cases src.fetchHelius mint with
    | some h => exact Or.inr ⟨h, rfl⟩
    | none =>
      cases src.fetchSolscan mint with
      | some s => exact Or.inr ⟨s, rfl⟩
      | none =>
        cases src.fetchJupiter mint with
        | some j => exact Or.inr ⟨j, rfl⟩
        | none => exact Or.inr ⟨_, rfl⟩

/-- Totality invariant of the batch fold: once a mint has an entry in the
results map (or is still to be processed), it has one at the end. -/
lemma batch_total_aux (src : MetaSources) (hints : String → Option Nat)
    (mint : String) :
    ∀ (l : List String) (results cache : MetaCache),
      (mint ∈ l ∨ (cacheGet results mint).isSome) →
      (cacheGet (l.foldl (fun acc m =>
        ((cacheSet acc.1 m (getTokenMeta src acc.2 m (hints m)).1),
          (getTokenMeta src acc.2 m (hints m)).2)) (results, cache)).1
        mint).isSome := by
  intro l
  induction l with
  | nil =>
    intro results cache h
    rcases h with h | h
    · simp at h
    · exact h
  | cons m ms ih =>
    intro results cache h
    rw [List.foldl_cons]
    apply ih
    rcases h with h | h
    · rcases List.mem_cons.1 h with rfl | hms
      · refine Or.inr ?_
        rw [cacheGet_set_self]
        rfl
      · exact Or.inl hms
    · exact Or.inr (isSome_cacheGet_set _ _ _ _ h)

/-- Derived-fallback invariant of the batch fold: when no upstream source
resolves the mint and the shared cache holds nothing but possibly the
derived entry for it, the results map ends up with exactly the derived
entry. -/
lemma batch_derived_aux (src : MetaSources) (hints : String → Option Nat)
    (mint : String)
    (hh : src.fetchHelius mint = none) (hs : src.fetchSolscan mint = none)
    (hj : src.fetchJupiter mint = none) :
    ∀ (l : List String) (results cache : MetaCache),
      (cacheGet cache mint = none ∨
        cacheGet cache mint = some (derivedMeta mint (hints mint))) →
      (mint ∈ l ∨
        cacheGet results mint = some (derivedMeta mint (hints mint))) →
      cacheGet (l.foldl (fun acc m =>
        ((cacheSet acc.1 m (getTokenMeta src acc.2 m (hints m)).1),
          (getTokenMeta src acc.2 m (hints m)).2)) (results, cache)).1 mint =
        some (derivedMeta mint (hints mint)) := by
  intro l
  induction l with
  | nil =>
    intro results cache _ h
    rcases h with h | h
    · simp at h
    · exact h
  | cons m ms ih =>
    intro results cache hcache h
    rw [List.foldl_cons]
    by_cases hm : m = mint
    · subst hm
      have hstep : (getTokenMeta src cache m (hints m)).1 =
          derivedMeta m (hints m) ∧
          (cacheGet (getTokenMeta src cache m (hints m)).2 m = none ∨
            cacheGet (getTokenMeta src cache m (hints m)).2 m =
              some (derivedMeta m (hints m))) := by
        unfold getTokenMeta
        rcases hcache with hc | hc
        · rw [hc, hh, hs, hj]
          refine ⟨rfl, Or.inr ?_⟩
          rw [cacheGet_set_self]
        · rw [hc]
          exact ⟨rfl, Or.inr hc⟩
      apply ih
      · exact hstep.2
      · refine Or.inr ?_
        rw [hstep.1, cacheGet_set_self]
    · apply ih
      · rcases getTokenMeta_cache_shape src cache m (hints m) with hsh | ⟨x, hsh⟩
        · rw [hsh]
          exact hcache
        · rw [hsh, cacheGet_set_ne m mint x (fun hmm => hm hmm.symm)]
          exact hcache
      · rcases h with h | h
        · rcases List.mem_cons.1 h with rfl | hms
          · exact absurd rfl hm
          · exact Or.inl hms
        · refine Or.inr ?_
          rw [cacheGet_set_ne m mint _ (fun hmm => hm hmm.symm)]
          exact h

/-- C9: The batch token-metadata resolver never fails: every input mint
receives an entry in the returned map, and a mint that no upstream source
resolved (and that the module cache does not already hold) receives the
derived entry `{symbol: short(mint), decimals: hint ?? 9, source:
derived}`. -/
theorem metadata_total_derived (src : MetaSources) (cache0 : MetaCache)
    (mints : List String) (hints : String → Option Nat) (mint : String)
    (hmem : mint ∈ mints) :
    (cacheGet (getBatchTokenMeta src cache0 mints hints).1 mint).isSome ∧
    (cacheGet cache0 mint = none →
      src.fetchHelius mint = none → src.fetchSolscan mint = none →
      src.fetchJupiter mint = none →
      cacheGet (getBatchTokenMeta src cache0 mints hints).1 mint =
        some (derivedMeta mint (hints mint))) := by
  constructor
  · exact batch_total_aux src hints mint mints [] cache0 (Or.inl hmem)
  · intro hc hh hs hj
    exact batch_derived_aux src hints mint hh hs hj mints [] cache0
      (Or.inl hc) (Or.inl hmem)

theorem metadata_total_derived_witness :
    ("mintA" ∈ ["mintA"] ∧
      cacheGet [] "mintA" = none) ∧
    cacheGet (getBatchTokenMeta
        (MetaSources.mk (fun _ => none) (fun _ => none) (fun _ => none))
        [] ["mintA"] (fun _ => none)).1 "mintA" =
      some (derivedMeta "mintA" none) := by
  have hmem : "mintA" ∈ ["mintA"] := by decide
  refine ⟨⟨hmem, rfl⟩, ?_⟩
  exact (metadata_total_derived
    (MetaSources.mk (fun _ => none) (fun _ => none) (fun _ => none))
    [] ["mintA"] (fun _ => none) "mintA" hmem).2 rfl rfl rfl rfl

end FadeAi
